import Mathlib

/-!
Verification development for the TranscriptParser repository
(source files: src/transcript.py and src/parser.py).

Modelling conventions, shared by all definitions below:

* Python strings are modelled as `List Char`.
* Python `timedelta` values are modelled as `Int`, counting microseconds
  (CPython `timedelta` has exactly microsecond resolution).
* Python exceptions (`ValueError`, `IndexError`, `ZeroDivisionError`) are
  modelled by `Except String` or `Option` results: a raised exception is
  `.error`/`none`.
* A Python `set[str]` is modelled as `Finset (List Char)`; a `dict[str, str]`
  is modelled as an association list queried with `List.lookup`.
-/

/-- `TranscriptLine` from src/transcript.py: a line with private fields
`__start_time`, `__end_time`, `__speaker`, `__text`. -/
structure TranscriptLine where
  start_time : Int
  end_time : Int
  speaker : List Char
  text : List Char
deriving DecidableEq, Repr

/-- `TranscriptLine.__init__`: zero times, empty speaker and text. -/
instance : Inhabited TranscriptLine := ⟨⟨0, 0, [], []⟩⟩

/-- `TranscriptLine.create`: builds a line from raw data. -/
def TranscriptLine.create (start_time end_time : Int) (speaker text : List Char) :
    TranscriptLine :=
  ⟨start_time, end_time, speaker, text⟩

/-- `TranscriptLine.get_duration`: `self.__end_time - self.__start_time`. -/
def TranscriptLine.get_duration (ln : TranscriptLine) : Int :=
  ln.end_time - ln.start_time

/-- `TranscriptLine.__sub__`: `self.get_start_time() - other.get_end_time()`. -/
def TranscriptLine.sub (self other : TranscriptLine) : Int :=
  self.start_time - other.end_time

/-- `Transcript` from src/transcript.py with its five private fields. -/
structure Transcript where
  lines : List TranscriptLine
  speakers : Finset (List Char)
  silence_intervals : List Int
  total_speaking_time : Int
  total_silence : Int
deriving DecidableEq

/-- `Transcript.__init__`: no lines, no speakers, no intervals, zero totals. -/
def emptyTranscript : Transcript :=
  ⟨[], ∅, [], 0, 0⟩

/-- `Transcript.__add_item`: appends a line; if a previous line exists, the
silence `item - last` is accumulated and recorded; the speaker is added to the
speaker set and the duration to the total speaking time. -/
def Transcript.add_item (t : Transcript) (item : TranscriptLine) : Transcript :=
  match t.lines.getLast? with
  | some last =>
    { lines := t.lines ++ [item]
      speakers := insert item.speaker t.speakers
      silence_intervals := t.silence_intervals ++ [item.sub last]
      total_speaking_time := t.total_speaking_time + item.get_duration
      total_silence := t.total_silence + item.sub last }
  | none =>
    { lines := t.lines ++ [item]
      speakers := insert item.speaker t.speakers
      silence_intervals := t.silence_intervals
      total_speaking_time := t.total_speaking_time + item.get_duration
      total_silence := t.total_silence }

/-- A transcript built by adding a list of lines, one `add_item` at a time,
to a fresh `Transcript()`; every constructing operation in the source builds
its result this way. -/
def ofLines (ls : List TranscriptLine) : Transcript :=
  ls.foldl Transcript.add_item emptyTranscript

/-- The loop of `Transcript.merge`: `merged` is the transcript built so far,
`next_merged_line` the current accumulator, and the list the remaining
`self.__lines[1:]` suffix. -/
def merge_go (merge_predicate : TranscriptLine → TranscriptLine → Bool) :
    Transcript → TranscriptLine → List TranscriptLine → Transcript
  | merged, next_merged_line, [] => merged.add_item next_merged_line
  | merged, next_merged_line, curr_line :: rest =>
    if merge_predicate next_merged_line curr_line then
      merge_go merge_predicate merged
        (TranscriptLine.create next_merged_line.start_time curr_line.end_time
          next_merged_line.speaker (next_merged_line.text ++ ' ' :: curr_line.text)) rest
    else
      merge_go merge_predicate (merged.add_item next_merged_line) curr_line rest

/-- `Transcript.merge`: on an empty transcript `self.__lines[0]` raises
`IndexError`, modelled by `none`. -/
def Transcript.merge (t : Transcript)
    (merge_predicate : TranscriptLine → TranscriptLine → Bool) : Option Transcript :=
  match t.lines with
  | [] => none
  | first :: rest => some (merge_go merge_predicate emptyTranscript first rest)

/-- `Transcript.__same_speaker`. -/
def same_speaker (line1 line2 : TranscriptLine) : Bool :=
  line1.speaker == line2.speaker

/-- `Transcript.__longer_silence`: `line2 - line1 >= interval`. -/
def longer_silence (line1 line2 : TranscriptLine) (interval : Int) : Bool :=
  decide (line2.sub line1 ≥ interval)

/-- `Transcript.get_silence_intervals`: optionally a sorted copy.  Python
`sorted` is a stable ascending sort; `List.insertionSort` is one too. -/
def Transcript.get_silence_intervals (t : Transcript) (sort : Bool) : List Int :=
  if sort then t.silence_intervals.insertionSort (· ≤ ·) else t.silence_intervals

/-- `Transcript.median_silence`: `get_silence_intervals(sort=True)[len // 2]`.
Indexing an empty list raises `IndexError`, modelled by `none`. -/
def Transcript.median_silence (t : Transcript) : Option Int :=
  let silence_intervals := t.get_silence_intervals true
  silence_intervals.get? (silence_intervals.length / 2)

/-- The key relation of `sorted(self.__lines, key=lambda x: x.get_duration())`. -/
def durLe (a b : TranscriptLine) : Prop :=
  a.get_duration ≤ b.get_duration

instance : DecidableRel durLe := fun a b =>
  inferInstanceAs (Decidable (a.get_duration ≤ b.get_duration))

/-- `Transcript.median_speaking_time`:
`sorted(lines, key=duration)[len(lines) // 2].get_duration()`. -/
def Transcript.median_speaking_time (t : Transcript) : Option Int :=
  ((t.lines.insertionSort durLe).get? (t.lines.length / 2)).map TranscriptLine.get_duration

/-- `Transcript.std_speaking_time`: `return timedelta()`. -/
def Transcript.std_speaking_time (_t : Transcript) : Int :=
  0

/-- `Transcript.merge_by_silence_interval`.  `interval=None` falls back to
`median_silence` (which raises on an empty interval list, modelled by `none`).
The Python body then does `pred = pred and self.__same_speaker` when speakers
are not ignored; `pred` is a function object and hence truthy, so that
conjunction evaluates to `self.__same_speaker`, discarding the silence
predicate entirely. -/
def Transcript.merge_by_silence_interval (t : Transcript)
    (interval : Option Int) (ignore_speakers : Bool) : Option Transcript :=
  match (match interval with | none => t.median_silence | some i => some i) with
  | none => none
  | some interval =>
    let pred := fun line1 line2 => longer_silence line1 line2 interval
    let pred2 := if ignore_speakers then pred else same_speaker
    t.merge pred2

/-- The loop of `Transcript.map_speakers` over `self.__lines`. -/
def map_go (speaker_map : List (List Char × List Char)) :
    Transcript → List TranscriptLine → Transcript
  | mapped, [] => mapped
  | mapped, line :: rest =>
    match speaker_map.lookup line.speaker with
    | some newName =>
      map_go speaker_map
        (mapped.add_item (TranscriptLine.create line.start_time line.end_time newName line.text))
        rest
    | none => map_go speaker_map (mapped.add_item line) rest

/-- `Transcript.map_speakers`. -/
def Transcript.map_speakers (t : Transcript)
    (speaker_map : List (List Char × List Char)) : Transcript :=
  map_go speaker_map emptyTranscript t.lines

/-- The loop of `Transcript.alternate_speakers` over `range(len(self.__lines))`.
When `speaker_names` is empty, `speaker_names[i % len(speaker_names)]` raises
`ZeroDivisionError` at the first iteration; with a non-empty list the index
`i % len` is always in range, so `getD` never uses its default. -/
def alternate_go (speaker_names : List (List Char)) :
    Transcript → Nat → List TranscriptLine → Except String Transcript
  | alternated, _, [] => .ok alternated
  | alternated, i, line :: rest =>
    if speaker_names.length = 0 then
      .error ("ZeroDivisionError: integer modulo by zero")
    else
      alternate_go speaker_names
        (alternated.add_item
          (TranscriptLine.create line.start_time line.end_time
            (speaker_names.getD (i % speaker_names.length) []) line.text))
        (i + 1) rest

/-- `Transcript.alternate_speakers`. -/
def Transcript.alternate_speakers (t : Transcript)
    (speaker_names : List (List Char)) : Except String Transcript :=
  alternate_go speaker_names emptyTranscript 0 t.lines

/-! ### String-level helpers for parsing and serialization -/

/-- The whitespace characters removed by Python `str.strip()` (restricted to
the ASCII range; the inputs treated here contain no non-ASCII whitespace). -/
def pyIsSpace (c : Char) : Bool :=
  c == ' ' || c == '\t' || c == '\n' || c == '\r' || c == '\x0b' || c == '\x0c'

/-- Python `str.strip()`: drop leading and trailing whitespace. -/
def pyStrip (cs : List Char) : List Char :=
  ((cs.dropWhile pyIsSpace).reverse.dropWhile pyIsSpace).reverse

/-- Python `s.split('\n\n')`: split at each non-overlapping occurrence of a
double newline, scanning left to right. -/
def splitNlNl : List Char → List (List Char)
  | [] => [[]]
  | [c] => [[c]]
  | c :: d :: rest =>
    if c = '\n' ∧ d = '\n' then [] :: splitNlNl rest
    else (c :: (splitNlNl (d :: rest)).headD []) :: (splitNlNl (d :: rest)).tail

/-- Python `s.split(':')` (the separator occurs nowhere twice in a row in the
strings it is applied to, so single-character splitting is exact). -/
def splitColon : List Char → List (List Char)
  | [] => [[]]
  | c :: rest =>
    if c = ':' then [] :: splitColon rest
    else (c :: (splitColon rest).headD []) :: (splitColon rest).tail

/-- Split a string at the first occurrence of `sep`; `none` when `sep` does
not occur. -/
def splitFirstOn (sep : Char) : List Char → Option (List Char × List Char)
  | [] => none
  | c :: rest =>
    if c = sep then some ([], rest)
    else (splitFirstOn sep rest).map (fun p => (c :: p.1, p.2))

/-- Python `sep.join(blocks)`. -/
def joinBlocks (sep : List Char) : List (List Char) → List Char
  | [] => []
  | [b] => b
  | b :: b2 :: bs => b ++ sep ++ joinBlocks sep (b2 :: bs)

/-- The split performed by the regex `(?P<speaker>.+): (?P<text>.+)$` on a
newline-free line: the first `.+` is greedy, so the line is split at the
last occurrence of `": "` that leaves a non-empty text; the speaker part
returned here may still be empty (`.+` forbids that, checked by the caller). -/
def splitGreedy : List Char → Option (List Char × List Char)
  | [] => none
  | c :: rest =>
    ((splitGreedy rest).map (fun p => (c :: p.1, p.2))).or
      (if c = ':' ∧ rest.head? = some ' ' ∧ rest.tail ≠ [] then some ([], rest.tail) else none)

/-- Decimal digit test, `[0-9]` in the regex. -/
def isDigitCh (c : Char) : Bool :=
  decide (48 ≤ c.toNat) && decide (c.toNat ≤ 57)

/-- Value of a decimal digit character. -/
def digitVal (c : Char) : Nat :=
  c.toNat - 48

/-- The regex group `(?P<line_num>[1-9][0-9]*)`. -/
def matchLineNum : List Char → Bool
  | [] => false
  | c :: rest => (decide (49 ≤ c.toNat) && decide (c.toNat ≤ 57)) && rest.all isDigitCh

/-- The regex fragment `[0-9]{2}:[0-9]{2}:[0-9]{2}\.[0-9]{3}`: consumes
exactly twelve characters and returns the four digit groups (hours, minutes,
seconds, milliseconds, still unvalidated) plus the remaining input. -/
def matchTimestampShape : List Char → Option ((Nat × Nat × Nat × Nat) × List Char)
  | h1 :: h2 :: c1 :: m1 :: m2 :: c2 :: s1 :: s2 :: d :: f1 :: f2 :: f3 :: rest =>
    if c1 = ':' ∧ c2 = ':' ∧ d = '.' ∧
        ([h1, h2, m1, m2, s1, s2, f1, f2, f3].all isDigitCh) = true then
      some ((10 * digitVal h1 + digitVal h2,
             10 * digitVal m1 + digitVal m2,
             10 * digitVal s1 + digitVal s2,
             100 * digitVal f1 + 10 * digitVal f2 + digitVal f3), rest)
    else none
  | _ => none

/-- The middle line of the block regex:
`(?P<start_time>...) --> (?P<end_time>...)` matched against the whole line. -/
def matchTimeline (cs : List Char) :
    Option ((Nat × Nat × Nat × Nat) × (Nat × Nat × Nat × Nat)) :=
  match matchTimestampShape cs with
  | none => none
  | some (q1, rest) =>
    match rest with
    | a :: b :: c :: d :: e :: rest2 =>
      if a = ' ' ∧ b = '-' ∧ c = '-' ∧ d = '>' ∧ e = ' ' then
        match matchTimestampShape rest2 with
        | some (q2, []) => some (q1, q2)
        | _ => none
      else none
    | _ => none

/-- `TranscriptLine.__parse_time` via `datetime.strptime(time, "%H:%M:%S.%f")`:
`%H` accepts 00..23, `%M` 00..59, and the parsed seconds must be 00..59 for the
`datetime` constructor; out-of-range fields raise `ValueError`.  `%f` pads the
three fraction digits on the right to microseconds, so `f` milliseconds become
`f * 1000` microseconds. -/
def parse_time (h m s f : Nat) : Except String Int :=
  if h ≤ 23 ∧ m ≤ 59 ∧ s ≤ 59 then
    .ok (((h * 3600 + m * 60 + s) * 1000000 + f * 1000 : Nat) : Int)
  else .error ("ValueError: time data does not match format")

/-- `TranscriptLine.parse_line`: `re.fullmatch` of
`(?P<line_num>[1-9][0-9]*)\n(?P<start_time>...) --> (?P<end_time>...)\n(?P<speaker>.+): (?P<text>.+)$`
followed by `__parse_time` on both timestamps.  Since `.` never matches a
newline, a matching block consists of exactly three newline-separated lines;
a failed match raises `ValueError`. -/
def TranscriptLine.parse_line (block : List Char) : Except String TranscriptLine :=
  match splitFirstOn '\n' block with
  | none => .error ("Line is not a valid vtt transcript line")
  | some (l1, r1) =>
    match splitFirstOn '\n' r1 with
    | none => .error ("Line is not a valid vtt transcript line")
    | some (l2, l3) =>
      if l3.contains '\n' then .error ("Line is not a valid vtt transcript line")
      else if matchLineNum l1 = false then .error ("Line is not a valid vtt transcript line")
      else
        match matchTimeline l2 with
        | none => .error ("Line is not a valid vtt transcript line")
        | some ((h1, m1, s1, f1), (h2, m2, s2, f2)) =>
          match splitGreedy l3 with
          | none => .error ("Line is not a valid vtt transcript line")
          | some (sp, tx) =>
            if sp = [] then .error ("Line is not a valid vtt transcript line")
            else
              match parse_time h1 m1 s1 f1, parse_time h2 m2 s2 f2 with
              | .ok st, .ok en => .ok (TranscriptLine.create st en sp tx)
              | .error e, _ => .error e
              | .ok _, .error e => .error e

/-- The parsing loop of `Transcript.parse_transcript`: `__add_item` every
parsed block in order; a `ValueError` from `parse_line` propagates. -/
def parse_blocks (obj : Transcript) : List (List Char) → Except String Transcript
  | [] => .ok obj
  | b :: bs =>
    match TranscriptLine.parse_line b with
    | .error e => .error e
    | .ok ln => parse_blocks (obj.add_item ln) bs

/-- `Transcript.parse_transcript` applied to the contents of the file:
`read().strip().split('\n\n')`, drop a leading `WEBVTT` block, then parse
every remaining block. -/
def Transcript.parse_transcript (input : List Char) : Except String Transcript :=
  let ls0 := splitNlNl (pyStrip input)
  let ls1 := if ls0.head? = some (("WEBVTT").toList) then ls0.tail else ls0
  parse_blocks emptyTranscript ls1

/-! ### Serialization (`__str__`) -/

/-- Decimal digits of `n`, most significant first, via structurally
decreasing fuel (`fuel > n` suffices). -/
def natToCharsAux : Nat → Nat → List Char
  | 0, _ => []
  | fuel + 1, n =>
    if n < 10 then [Nat.digitChar n]
    else natToCharsAux fuel (n / 10) ++ [Nat.digitChar (n % 10)]

/-- Python `str(n)` for a natural number. -/
def natToChars (n : Nat) : List Char :=
  natToCharsAux (n + 1) n

/-- Python `format(n, '0wd')`: left-pad the decimal digits with zeros to
width `w`. -/
def padZeros (w : Nat) (n : Nat) : List Char :=
  List.replicate (w - (natToChars n).length) '0' ++ natToChars n

/-- Python `int(s)` for a string of decimal digits. -/
def charsToNat (cs : List Char) : Nat :=
  cs.foldl (fun acc c => 10 * acc + (c.toNat - 48)) 0

/-- CPython `str(timedelta)` for a non-negative value: optional
`D day(s), ` prefix, then `H:MM:SS`, then `.UUUUUU` when the microseconds are
non-zero (negative values, which never reach `__str__` here, are rendered by
CPython through day borrowing and are not modelled). -/
def strTimedelta (us : Int) : List Char :=
  let t := us.toNat
  let micro := t % 1000000
  let totalSecs := t / 1000000
  let ss := totalSecs % 60
  let mm := totalSecs / 60 % 60
  let hh := totalSecs / 3600 % 24
  let days := totalSecs / 86400
  (if days = 0 then []
   else natToChars days ++ (if days = 1 then (" day, ").toList else (" days, ").toList)) ++
  natToChars hh ++ ':' :: padZeros 2 mm ++ ':' :: padZeros 2 ss ++
  (if micro = 0 then [] else '.' :: padZeros 6 micro)

/-- Split a component of the form `SS` or `SS.FFFFFF` at its first dot. -/
def splitDot (part : List Char) : List Char × List Char :=
  match splitFirstOn '.' part with
  | some p => p
  | none => (part, [])

/-- Python `format(float(part), '06.3f')` on the components produced by
`strTimedelta`: the integer part and a fraction of at most six digits.  On
those inputs the fraction denotes a whole number of microseconds, and when it
is moreover a whole number of milliseconds (always the case for times built by
`parse_time`) the float conversion and the three-decimal rounding are exact,
reducing to truncating microseconds to milliseconds as written here. -/
def fmtLast063f (part : List Char) : List Char :=
  let p := splitDot part
  let sec := charsToNat p.1
  let micro := charsToNat ((p.2 ++ List.replicate 6 '0').take 6)
  padZeros 2 sec ++ '.' :: padZeros 3 (micro / 1000)

/-- The timestamp-formatting pipeline of `TranscriptLine.__str__`:
`str(timedelta)` split on `':'`, every component but the last re-rendered with
`format(int(c), '02d')`, the last with `format(float(c), '06.3f')`, joined
back with `':'`. -/
def formatTimestamp (us : Int) : List Char :=
  let parts := splitColon (strTimedelta us)
  joinBlocks [':']
    (parts.dropLast.map (fun p => padZeros 2 (charsToNat p)) ++ [fmtLast063f (parts.getLastD [])])

/-- `TranscriptLine.__str__`:
`{start} --> {end}\n{speaker}: {text}` with both timestamps re-formatted. -/
def TranscriptLine.str (ln : TranscriptLine) : List Char :=
  formatTimestamp ln.start_time ++
    ' ' :: '-' :: '-' :: '>' :: ' ' ::
      (formatTimestamp ln.end_time ++ '\n' :: (ln.speaker ++ ':' :: ' ' :: ln.text))

/-- The list `[str(i + 1) + '\n' + str(lines[i]) for i in range(len(lines))]`
of `Transcript.__str__`, with `i + 1` passed in as the starting index. -/
def numberBlocks : Nat → List TranscriptLine → List (List Char)
  | _, [] => []
  | i, ln :: rest => (natToChars i ++ '\n' :: ln.str) :: numberBlocks (i + 1) rest

/-- `Transcript.__str__`: the numbered blocks joined by blank lines. -/
def Transcript.str (t : Transcript) : List Char :=
  joinBlocks ['\n', '\n'] (numberBlocks 1 t.lines)

/-! ### Derived predicates and helper definitions used in the statements -/

/-- The silence gaps between adjacent lines of a line list: entry `i` is
`lines[i+1] - lines[i]` in the sense of `TranscriptLine.__sub__`. -/
def gaps : List TranscriptLine → List Int
  | [] => []
  | [_] => []
  | a :: b :: rest => b.sub a :: gaps (b :: rest)

/-- Gap accumulation relative to an optional previous line; used to describe
`silence_intervals` of a transcript built by folding `add_item`. -/
def gapsCont : Option TranscriptLine → List TranscriptLine → List Int
  | _, [] => []
  | none, x :: xs => gapsCont (some x) xs
  | some p, x :: xs => x.sub p :: gapsCont (some x) xs

/-- The four representation invariants claimed for every constructed
transcript (the interval count uses natural subtraction, which is
`max(0, len(lines) - 1)`). -/
def TranscriptInv (t : Transcript) : Prop :=
  t.silence_intervals.length = t.lines.length - 1 ∧
  t.total_silence = t.silence_intervals.sum ∧
  t.total_speaking_time = (t.lines.map TranscriptLine.get_duration).sum ∧
  t.speakers = (t.lines.map TranscriptLine.speaker).toFinset

/-- The line list produced by the `alternate_speakers` loop, with `i` the
index of the first element. -/
def mapAlt (speaker_names : List (List Char)) : Nat → List TranscriptLine → List TranscriptLine
  | _, [] => []
  | i, line :: rest =>
    TranscriptLine.create line.start_time line.end_time
        (speaker_names.getD (i % speaker_names.length) []) line.text ::
      mapAlt speaker_names (i + 1) rest

/-- The time values `parse_time` can produce: a non-negative whole number of
milliseconds below 24 hours. -/
def TimeOK (v : Int) : Prop :=
  0 ≤ v ∧ v < 86400000000 ∧ v % 1000 = 0

/-- The shape of every line `parse_line` can produce: in-range times, a
non-empty newline-free speaker and text, and a speaker/text pair that is the
greedy split of its own rendering. -/
def LineOK (ln : TranscriptLine) : Prop :=
  TimeOK ln.start_time ∧ TimeOK ln.end_time ∧
  ln.speaker ≠ [] ∧ ln.text ≠ [] ∧
  (ln.speaker ++ ':' :: ' ' :: ln.text).contains '\n' = false ∧
  splitGreedy (ln.speaker ++ ':' :: ' ' :: ln.text) = some (ln.speaker, ln.text)

/-! ### Concrete sample lines used in closed statements -/

/-- 0 s – 1 s, speaker Alice. -/
def lineA : TranscriptLine := ⟨0, 1000000, ("Alice").toList, ("hello").toList⟩

/-- 1 s – 2 s, speaker Alice (zero gap after `lineA`). -/
def lineB : TranscriptLine := ⟨1000000, 2000000, ("Alice").toList, ("there").toList⟩

/-- 4 s – 9 s, speaker Bob. -/
def lineC : TranscriptLine := ⟨4000000, 9000000, ("Bob").toList, ("yes").toList⟩

/-- 0 s – 3 s: duration 3 s. -/
def lineD : TranscriptLine := ⟨0, 3000000, ("Ann").toList, ("one").toList⟩

/-- 4 s – 5 s: duration 1 s. -/
def lineE : TranscriptLine := ⟨4000000, 5000000, ("Ann").toList, ("two").toList⟩

/-- The twelve characters `HH:MM:SS.mmm` of a rendered timestamp. -/
def tsDigits (h m s ms : Nat) : List Char :=
  [Nat.digitChar (h / 10), Nat.digitChar (h % 10), ':',
   Nat.digitChar (m / 10), Nat.digitChar (m % 10), ':',
   Nat.digitChar (s / 10), Nat.digitChar (s % 10), '.',
   Nat.digitChar (ms / 100), Nat.digitChar (ms / 10 % 10), Nat.digitChar (ms % 10)]

/-! ### Basic facts about `add_item` folds -/

theorem add_item_lines (t : Transcript) (x : TranscriptLine) :
    (t.add_item x).lines = t.lines ++ [x] := by
  unfold Transcript.add_item
  cases t.lines.getLast? <;> rfl

theorem foldl_add_item_lines : ∀ (ls : List TranscriptLine) (t : Transcript),
    (ls.foldl Transcript.add_item t).lines = t.lines ++ ls
  | [], t => by simp
  | x :: ls, t => by
    rw [List.foldl_cons, foldl_add_item_lines ls, add_item_lines]
    simp

theorem ofLines_lines (ls : List TranscriptLine) : (ofLines ls).lines = ls := by
  simp [ofLines, foldl_add_item_lines, emptyTranscript]

theorem lines_eq_nil_iff_getLast? {t : Transcript} :
    t.lines.getLast? = none ↔ t.lines = [] :=
  List.getLast?_eq_none_iff

theorem TranscriptInv_empty : TranscriptInv emptyTranscript := by
  refine ⟨rfl, rfl, rfl, by simp [emptyTranscript]⟩

theorem TranscriptInv_add_item {t : Transcript} (h : TranscriptInv t)
    (x : TranscriptLine) : TranscriptInv (t.add_item x) := by
  obtain ⟨h1, h2, h3, h4⟩ := h
  have hins : (t.lines.map TranscriptLine.speaker).toFinset ∪ {x.speaker} =
      insert x.speaker (t.lines.map TranscriptLine.speaker).toFinset := by
    rw [Finset.union_comm, ← Finset.insert_eq]
  unfold Transcript.add_item
  cases hL : t.lines.getLast? with
  | none =>
    have hnil : t.lines = [] := lines_eq_nil_iff_getLast?.mp hL
    exact ⟨by simp [hnil, h1], by simp [h2], by simp [h3], by simp [h4, hins]⟩
  | some last =>
    have hne : t.lines ≠ [] := by
      intro e
      rw [← lines_eq_nil_iff_getLast?] at e
      rw [e] at hL
      exact Option.noConfusion hL
    have hlen : 1 ≤ t.lines.length := by
      cases hc : t.lines with
      | nil => exact absurd hc hne
      | cons a l => simp
    refine ⟨?_, ?_, ?_, ?_⟩
    · simp only [List.length_append, List.length_cons, List.length_nil, h1]
      omega
    · simp [h2]
    · simp [h3]
    · simp [h4, hins]

theorem TranscriptInv_foldl {t : Transcript} (h : TranscriptInv t) :
    ∀ ls : List TranscriptLine, TranscriptInv (ls.foldl Transcript.add_item t)
  | [] => h
  | x :: ls => by
    rw [List.foldl_cons]
    exact TranscriptInv_foldl (TranscriptInv_add_item h x) ls

theorem TranscriptInv_ofLines (ls : List TranscriptLine) : TranscriptInv (ofLines ls) :=
  TranscriptInv_foldl TranscriptInv_empty ls

theorem TranscriptInv_merge_go (p : TranscriptLine → TranscriptLine → Bool) :
    ∀ (ls : List TranscriptLine) (m : Transcript) (acc : TranscriptLine),
      TranscriptInv m → TranscriptInv (merge_go p m acc ls)
  | [], m, acc, h => TranscriptInv_add_item h acc
  | curr :: rest, m, acc, h => by
    rw [merge_go]
    split
    · exact TranscriptInv_merge_go p rest m _ h
    · exact TranscriptInv_merge_go p rest _ curr (TranscriptInv_add_item h acc)

theorem TranscriptInv_map_go (sm : List (List Char × List Char)) :
    ∀ (ls : List TranscriptLine) (m : Transcript),
      TranscriptInv m → TranscriptInv (map_go sm m ls)
  | [], _, h => h
  | line :: rest, m, h => by
    rw [map_go]
    cases sm.lookup line.speaker with
    | some newName => exact TranscriptInv_map_go sm rest _ (TranscriptInv_add_item h _)
    | none => exact TranscriptInv_map_go sm rest _ (TranscriptInv_add_item h _)

theorem TranscriptInv_alternate_go (names : List (List Char)) :
    ∀ (ls : List TranscriptLine) (m : Transcript) (i : Nat) (t' : Transcript),
      TranscriptInv m → alternate_go names m i ls = .ok t' → TranscriptInv t'
  | [], m, i, t', h, he => by
    rw [alternate_go] at he
    cases he
    exact h
  | line :: rest, m, i, t', h, he => by
    rw [alternate_go] at he
    split at he
    · exact Except.noConfusion he
    · exact TranscriptInv_alternate_go names rest _ (i + 1) t' (TranscriptInv_add_item h _) he

theorem TranscriptInv_parse_blocks :
    ∀ (bs : List (List Char)) (m : Transcript) (t' : Transcript),
      TranscriptInv m → parse_blocks m bs = .ok t' → TranscriptInv t'
  | [], m, t', h, he => by
    rw [parse_blocks] at he
    cases he
    exact h
  | b :: bs, m, t', h, he => by
    rw [parse_blocks] at he
    cases hp : TranscriptLine.parse_line b with
    | error e => rw [hp] at he; exact Except.noConfusion he
    | ok ln =>
      rw [hp] at he
      exact TranscriptInv_parse_blocks bs _ t' (TranscriptInv_add_item h ln) he

/-- Claim C5: every transcript produced by a constructing operation
(`parse_transcript`, `map_speakers`, `alternate_speakers`, `merge`) satisfies
the four invariants: the interval count is `max(0, len(lines) - 1)` (natural
subtraction below), the total silence is the sum of the intervals, the total
speaking time is the sum of the line durations, and the speaker set is the set
of the lines' speakers. -/
theorem C5_invariants :
    (∀ input t, Transcript.parse_transcript input = .ok t → TranscriptInv t) ∧
    (∀ (t : Transcript) m, TranscriptInv (t.map_speakers m)) ∧
    (∀ (t : Transcript) ns t', t.alternate_speakers ns = .ok t' → TranscriptInv t') ∧
    (∀ (t : Transcript) p t', t.merge p = some t' → TranscriptInv t') := by
  refine ⟨?_, ?_, ?_, ?_⟩
  · intro input t h
    exact TranscriptInv_parse_blocks _ _ t TranscriptInv_empty h
  · intro t m
    exact TranscriptInv_map_go m t.lines emptyTranscript TranscriptInv_empty
  · intro t ns t' h
    exact TranscriptInv_alternate_go ns t.lines emptyTranscript 0 t' TranscriptInv_empty h
  · intro t p t' h
    unfold Transcript.merge at h
    cases hL : t.lines with
    | nil => rw [hL] at h; exact Option.noConfusion h
    | cons first rest =>
      rw [hL] at h
      cases h
      exact TranscriptInv_merge_go p rest emptyTranscript first TranscriptInv_empty

/-- Witness for C5 at concrete inputs: the merge clause applied to a two-line
transcript, with the `merge ... = some ...` hypothesis discharged by `rfl`. -/
theorem C5_invariants_witness :
    ∃ t', (ofLines [lineA, lineC]).merge same_speaker = some t' ∧ TranscriptInv t' :=
  ⟨_, rfl, C5_invariants.2.2.2 (ofLines [lineA, lineC]) same_speaker _ rfl⟩

/-! ### The merge loop -/

theorem getLast?_cons_eq_getLastD {α : Type} : ∀ (l : List α) (a : α),
    (a :: l).getLast? = some (l.getLastD a)
  | [], _ => rfl
  | b :: bs, a => by
    rw [List.getLast?_cons_cons, getLast?_cons_eq_getLastD bs b, List.getLastD_cons]

theorem getLastD_end_time_congr : ∀ (l : List TranscriptLine) {a b : TranscriptLine},
    a.end_time = b.end_time → (l.getLastD a).end_time = (l.getLastD b).end_time
  | [], _, _, h => h
  | _ :: _, _, _, _ => by rw [List.getLastD_cons, List.getLastD_cons]

theorem merge_go_spec (p : TranscriptLine → TranscriptLine → Bool) :
    ∀ (ls : List TranscriptLine) (m : Transcript) (acc : TranscriptLine),
      ∃ out, (merge_go p m acc ls).lines = m.lines ++ out ∧ out ≠ [] ∧
        out.head?.map TranscriptLine.start_time = some acc.start_time ∧
        out.getLast?.map TranscriptLine.end_time = some (ls.getLastD acc).end_time
  | [], m, acc => by
    refine ⟨[acc], ?_, by simp, rfl, rfl⟩
    rw [merge_go, add_item_lines]
  | curr :: rest, m, acc => by
    rw [merge_go]
    split
    case isTrue hp =>
      obtain ⟨out, h1, h2, h3, h4⟩ := merge_go_spec p rest m
        (TranscriptLine.create acc.start_time curr.end_time acc.speaker
          (acc.text ++ ' ' :: curr.text))
      refine ⟨out, h1, h2, h3, ?_⟩
      rw [h4, List.getLastD_cons]
      exact congrArg some (getLastD_end_time_congr rest rfl)
    case isFalse hp =>
      obtain ⟨out, h1, h2, h3, h4⟩ := merge_go_spec p rest (m.add_item acc) curr
      refine ⟨acc :: out, ?_, by simp, rfl, ?_⟩
      · rw [h1, add_item_lines]
        simp
      · cases ho : out with
        | nil => exact absurd ho h2
        | cons o os =>
          rw [ho] at h4
          rw [List.getLast?_cons_cons, h4, List.getLastD_cons]

/-- Claim C6: for every non-empty transcript and every merge predicate, the
merged transcript keeps the first line's start time and the last line's end
time. -/
theorem C6_merge_endpoints (t : Transcript)
    (p : TranscriptLine → TranscriptLine → Bool) (h : t.lines ≠ []) :
    ∃ m, t.merge p = some m ∧
      m.lines.head?.map TranscriptLine.start_time =
        t.lines.head?.map TranscriptLine.start_time ∧
      m.lines.getLast?.map TranscriptLine.end_time =
        t.lines.getLast?.map TranscriptLine.end_time := by
  cases hL : t.lines with
  | nil => exact absurd hL h
  | cons first rest =>
    obtain ⟨out, h1, h2, h3, h4⟩ := merge_go_spec p rest emptyTranscript first
    refine ⟨merge_go p emptyTranscript first rest, by rw [Transcript.merge, hL], ?_, ?_⟩
    · rw [h1]
      simpa [emptyTranscript] using h3
    · rw [h1, getLast?_cons_eq_getLastD]
      simpa [emptyTranscript] using h4

/-- Witness for C6 at a concrete two-line transcript. -/
theorem C6_merge_endpoints_witness :
    ∃ m, (ofLines [lineA, lineC]).merge same_speaker = some m ∧
      m.lines.head?.map TranscriptLine.start_time =
        (ofLines [lineA, lineC]).lines.head?.map TranscriptLine.start_time ∧
      m.lines.getLast?.map TranscriptLine.end_time =
        (ofLines [lineA, lineC]).lines.getLast?.map TranscriptLine.end_time :=
  C6_merge_endpoints (ofLines [lineA, lineC]) same_speaker (by decide)

/-- Claim C9: merging a one-line transcript returns a transcript with the same
line list (the sense in which `Transcript.__eq__` compares transcripts), for
every predicate; the predicate is applied to a pair of lines only inside the
loop over `lines[1:]`, which is empty here. -/
theorem C9_single_line (t : Transcript)
    (p : TranscriptLine → TranscriptLine → Bool) (l : TranscriptLine)
    (h : t.lines = [l]) :
    ∃ m, t.merge p = some m ∧ m.lines = t.lines := by
  refine ⟨merge_go p emptyTranscript l [], by rw [Transcript.merge, h], ?_⟩
  rw [merge_go, add_item_lines, h]
  rfl

/-- Witness for C9 at a concrete one-line transcript. -/
theorem C9_single_line_witness :
    ∃ m, (ofLines [lineA]).merge same_speaker = some m ∧
      m.lines = (ofLines [lineA]).lines :=
  C9_single_line (ofLines [lineA]) same_speaker lineA (by decide)

/-- Claim C8: with `ignore_speakers=False`, `merge_by_silence_interval`
produces the same transcript for any two intervals, and that transcript is
exactly `merge` applied with the same-speaker predicate alone: the local
`pred` holding the silence test is discarded by `pred = pred and
self.__same_speaker`. -/
theorem C8_interval_independent (t : Transcript) (i1 i2 : Int)
    (_h : 2 ≤ t.lines.length) :
    t.merge_by_silence_interval (some i1) false =
      t.merge_by_silence_interval (some i2) false ∧
    t.merge_by_silence_interval (some i1) false = t.merge same_speaker :=
  ⟨rfl, rfl⟩

/-- Witness for C8 at a concrete two-line transcript and two intervals. -/
theorem C8_interval_independent_witness :
    (ofLines [lineA, lineC]).merge_by_silence_interval (some 0) false =
      (ofLines [lineA, lineC]).merge_by_silence_interval (some 7000000) false ∧
    (ofLines [lineA, lineC]).merge_by_silence_interval (some 0) false =
      (ofLines [lineA, lineC]).merge same_speaker :=
  C8_interval_independent (ofLines [lineA, lineC]) 0 7000000 (by decide)

/-- Claim C1, evaluated at the failing input.  `lineA` and `lineB` share the
speaker Alice and have a zero gap; with interval 5 s the claimed conjunction
(gap at least the interval AND same speaker) is false for the only candidate
pair, so under the claim the two lines must stay separate.  The code instead
merges them into a single line: in `pred = pred and self.__same_speaker` the
function object `pred` is truthy, so the assignment discards the silence
condition and merging proceeds by speaker alone. -/
theorem C1_silence_and_speaker_bug :
    (longer_silence lineA lineB 5000000 && same_speaker lineA lineB) = false ∧
    (ofLines [lineA, lineB]).merge_by_silence_interval (some 5000000) false =
      some (ofLines [TranscriptLine.create 0 2000000 (("Alice").toList)
        (("hello").toList ++ ' ' :: ("there").toList)]) :=
  ⟨rfl, rfl⟩

/-- Claim C10: `std_speaking_time` returns the zero duration on every
transcript, whatever its line durations. -/
theorem C10_std_zero (t : Transcript) : t.std_speaking_time = 0 :=
  rfl

/-! ### Silence intervals of a built transcript, and the medians -/

theorem gapsCont_some : ∀ (p : TranscriptLine) (ls : List TranscriptLine),
    gapsCont (some p) ls = gaps (p :: ls)
  | _, [] => rfl
  | p, x :: xs => by
    rw [gapsCont, gapsCont_some x xs]
    rfl

theorem gapsCont_none : ∀ ls : List TranscriptLine, gapsCont none ls = gaps ls
  | [] => rfl
  | x :: xs => by
    rw [gapsCont, gapsCont_some x xs]

theorem foldl_add_item_silence : ∀ (ls : List TranscriptLine) (t : Transcript),
    (ls.foldl Transcript.add_item t).silence_intervals =
      t.silence_intervals ++ gapsCont t.lines.getLast? ls
  | [], t => by simp [gapsCont]
  | x :: ls, t => by
    rw [List.foldl_cons, foldl_add_item_silence ls]
    have hlast : (t.add_item x).lines.getLast? = some x := by
      rw [add_item_lines, List.getLast?_concat]
    cases hL : t.lines.getLast? with
    | none =>
      have hsil : (t.add_item x).silence_intervals = t.silence_intervals := by
        unfold Transcript.add_item
        rw [hL]
      rw [hsil, hlast, gapsCont]
    | some p =>
      have hsil : (t.add_item x).silence_intervals = t.silence_intervals ++ [x.sub p] := by
        unfold Transcript.add_item
        rw [hL]
      rw [hsil, hlast, gapsCont, List.append_assoc]
      rfl

theorem ofLines_silence (ls : List TranscriptLine) :
    (ofLines ls).silence_intervals = gaps ls := by
  rw [ofLines, foldl_add_item_silence]
  simp [emptyTranscript, gapsCont_none]

theorem map_orderedInsert_duration : ∀ (a : TranscriptLine) (l : List TranscriptLine),
    (l.orderedInsert durLe a).map TranscriptLine.get_duration =
      (l.map TranscriptLine.get_duration).orderedInsert (· ≤ ·) a.get_duration
  | _, [] => rfl
  | a, b :: l => by
    have hiff : durLe a b ↔ a.get_duration ≤ b.get_duration := Iff.rfl
    by_cases h : durLe a b
    · rw [List.orderedInsert, if_pos h, List.map_cons, List.map_cons]
      rw [List.orderedInsert, if_pos (hiff.mp h)]
    · rw [List.orderedInsert, if_neg h, List.map_cons, List.map_cons]
      rw [List.orderedInsert, if_neg (fun hc => h (hiff.mpr hc)), map_orderedInsert_duration a l]

theorem map_insertionSort_duration : ∀ l : List TranscriptLine,
    (l.insertionSort durLe).map TranscriptLine.get_duration =
      (l.map TranscriptLine.get_duration).insertionSort (· ≤ ·)
  | [] => rfl
  | a :: l => by
    rw [List.insertionSort, List.map_cons, List.insertionSort,
      ← map_insertionSort_duration l, map_orderedInsert_duration]

/-- Claim C3 counterexample: an even, two-line transcript with durations 3 s
then 1 s.  The ascending durations are `[1 s, 3 s]` whose lower-middle
element (index 0) is 1 s, but `median_speaking_time` returns 3 s: the code
indexes the sorted list at `len // 2`, the upper-middle position. -/
theorem C3_counterexample :
    (ofLines [lineD, lineE]).median_speaking_time = some 3000000 ∧
    ((ofLines [lineD, lineE]).lines.map TranscriptLine.get_duration).insertionSort (· ≤ ·) =
      [1000000, 3000000] :=
  ⟨rfl, by decide⟩

/-- Claim C3 (amended): both medians index the ascending sort at position
`count / 2` (0-indexed): the exact middle for odd counts and the
upper-middle element for even counts — not the lower-middle one.
`median_speaking_time` sorts the lines stably by duration and returns the
duration at index `len(lines) / 2`; `median_silence` sorts the gaps between
adjacent lines and returns the gap at index `len(gaps) / 2`. -/
theorem C3_median_upper_middle :
    (∀ ls : List TranscriptLine, ls ≠ [] →
      (ofLines ls).median_speaking_time =
        ((ls.map TranscriptLine.get_duration).insertionSort (· ≤ ·)).get? (ls.length / 2)) ∧
    (∀ ls : List TranscriptLine, 2 ≤ ls.length →
      (ofLines ls).median_silence =
        ((gaps ls).insertionSort (· ≤ ·)).get? ((gaps ls).length / 2)) := by
  constructor
  · intro ls _
    rw [Transcript.median_speaking_time, ofLines_lines, ← map_insertionSort_duration,
      ← List.get?_map]
  · intro ls _
    rw [Transcript.median_silence, Transcript.get_silence_intervals, if_pos rfl,
      ofLines_silence]
    have hl : ((gaps ls).insertionSort (· ≤ ·)).length = (gaps ls).length :=
      (List.perm_insertionSort _ _).length_eq
    rw [hl]

/-- Witness for C3 (amended) at concrete inputs: a one-line transcript for the
speaking-time median and a three-line transcript for the silence median. -/
theorem C3_median_upper_middle_witness :
    ((ofLines [lineD]).median_speaking_time =
      (([lineD].map TranscriptLine.get_duration).insertionSort (· ≤ ·)).get? 0) ∧
    ((ofLines [lineA, lineC, lineD]).median_silence =
      ((gaps [lineA, lineC, lineD]).insertionSort (· ≤ ·)).get? 1) :=
  ⟨C3_median_upper_middle.1 [lineD] (by decide),
   C3_median_upper_middle.2 [lineA, lineC, lineD] (by decide)⟩

/-! ### The alternate_speakers loop -/

theorem alternate_go_ok (names : List (List Char)) (hne : names ≠ []) :
    ∀ (ls : List TranscriptLine) (alt : Transcript) (i : Nat),
      alternate_go names alt i ls = .ok ((mapAlt names i ls).foldl Transcript.add_item alt)
  | [], alt, i => by
    rw [alternate_go, mapAlt, List.foldl_nil]
  | l :: ls, alt, i => by
    rw [alternate_go, if_neg (fun hc => hne (List.length_eq_zero.mp hc)),
      mapAlt, List.foldl_cons]
    exact alternate_go_ok names hne ls _ (i + 1)

theorem mapAlt_length (names : List (List Char)) :
    ∀ (ls : List TranscriptLine) (i : Nat), (mapAlt names i ls).length = ls.length
  | [], _ => rfl
  | _ :: ls, i => by
    rw [mapAlt, List.length_cons, List.length_cons, mapAlt_length names ls (i + 1)]

theorem mapAlt_getD (names : List (List Char)) :
    ∀ (ls : List TranscriptLine) (i k : Nat), k < ls.length →
      (mapAlt names i ls).getD k default =
        TranscriptLine.create (ls.getD k default).start_time (ls.getD k default).end_time
          (names.getD ((i + k) % names.length) []) (ls.getD k default).text
  | [], _, k, h => absurd h (by simp)
  | l :: ls, i, 0, _ => by
    rw [mapAlt, List.getD_cons_zero, List.getD_cons_zero]
    simp
  | l :: ls, i, k + 1, h => by
    rw [mapAlt, List.getD_cons_succ, List.getD_cons_succ,
      mapAlt_getD names ls (i + 1) k (by simpa using h)]
    have : i + 1 + k = i + (k + 1) := by omega
    rw [this]

/-- Claim C7 counterexample: with an empty name list on the *empty*
transcript, `alternate_speakers` does not fail at all: the loop body whose
`names[i % 0]` indexing would raise never runs, and the empty transcript is
returned.  (On non-empty transcripts the failure that does occur is a
`ZeroDivisionError`; no `InvalidArgument` exists anywhere in the code.) -/
theorem C7_counterexample :
    emptyTranscript.alternate_speakers [] = .ok emptyTranscript :=
  rfl

/-- Claim C7 (amended): with a non-empty `names` list, `alternate_speakers`
succeeds and assigns line `i` (0-indexed) the speaker `names[i % len(names)]`,
keeping all other fields; with an empty `names` list it fails — with
`ZeroDivisionError` from `names[i % 0]`, not an `InvalidArgument` — only when
the transcript has at least one line, and returns the empty transcript
unchanged when the transcript is empty. -/
theorem C7_alternate_speakers :
    (∀ (t : Transcript) (names : List (List Char)), names ≠ [] →
      ∃ t', t.alternate_speakers names = .ok t' ∧
        t'.lines.length = t.lines.length ∧
        ∀ k, k < t.lines.length →
          t'.lines.getD k default =
            TranscriptLine.create (t.lines.getD k default).start_time
              (t.lines.getD k default).end_time
              (names.getD (k % names.length) [])
              (t.lines.getD k default).text) ∧
    (∀ t : Transcript, t.lines ≠ [] →
      t.alternate_speakers [] = .error ("ZeroDivisionError: integer modulo by zero")) ∧
    (∀ t : Transcript, t.lines = [] →
      t.alternate_speakers [] = .ok emptyTranscript) := by
  refine ⟨?_, ?_, ?_⟩
  · intro t names hne
    refine ⟨(mapAlt names 0 t.lines).foldl Transcript.add_item emptyTranscript,
      alternate_go_ok names hne t.lines emptyTranscript 0, ?_, ?_⟩
    · rw [foldl_add_item_lines]
      simp [emptyTranscript, mapAlt_length]
    · intro k hk
      rw [foldl_add_item_lines]
      have he : emptyTranscript.lines = [] := rfl
      rw [he, List.nil_append, mapAlt_getD names t.lines 0 k hk]
      have : 0 + k = k := by omega
      rw [this]
  · intro t ht
    cases hL : t.lines with
    | nil => exact absurd hL ht
    | cons l ls =>
      rw [Transcript.alternate_speakers, hL, alternate_go]
      rfl
  · intro t ht
    rw [Transcript.alternate_speakers, ht, alternate_go]

/-- Witness for C7 (amended): all three clauses applied at concrete inputs. -/
theorem C7_alternate_speakers_witness :
    (∃ t', (ofLines [lineA, lineC]).alternate_speakers [("X").toList] = .ok t' ∧
      t'.lines.length = (ofLines [lineA, lineC]).lines.length ∧
      ∀ k, k < (ofLines [lineA, lineC]).lines.length →
        t'.lines.getD k default =
          TranscriptLine.create ((ofLines [lineA, lineC]).lines.getD k default).start_time
            ((ofLines [lineA, lineC]).lines.getD k default).end_time
            ([("X").toList].getD (k % [("X").toList].length) [])
            ((ofLines [lineA, lineC]).lines.getD k default).text) ∧
    ((ofLines [lineA]).alternate_speakers [] =
      .error ("ZeroDivisionError: integer modulo by zero")) ∧
    (emptyTranscript.alternate_speakers [] = .ok emptyTranscript) :=
  ⟨C7_alternate_speakers.1 (ofLines [lineA, lineC]) [("X").toList] (by decide),
   C7_alternate_speakers.2.1 (ofLines [lineA]) (by decide),
   C7_alternate_speakers.2.2 emptyTranscript rfl⟩

/-! ### Facts about the greedy speaker/text split and line parsing -/

theorem splitGreedy_cons_eq (c : Char) (rest : List Char) :
    splitGreedy (c :: rest) =
      ((splitGreedy rest).map (fun p => (c :: p.1, p.2))).or
        (if c = ':' ∧ rest.head? = some ' ' ∧ rest.tail ≠ [] then some ([], rest.tail)
         else none) :=
  rfl

theorem splitGreedy_append : ∀ (L sp tx : List Char),
    splitGreedy L = some (sp, tx) → L = sp ++ ':' :: ' ' :: tx
  | [], _, _, h => by simp [splitGreedy] at h
  | c :: rest, sp, tx, h => by
    rw [splitGreedy_cons_eq] at h
    cases hr : splitGreedy rest with
    | some p =>
      obtain ⟨a, b⟩ := p
      rw [hr] at h
      simp only [Option.map_some', Option.or_some, Option.some.injEq, Prod.mk.injEq] at h
      obtain ⟨h1, h2⟩ := h
      subst h1
      subst h2
      rw [List.cons_append, ← splitGreedy_append rest a b hr]
    | none =>
      rw [hr] at h
      simp only [Option.map_none', Option.none_or] at h
      by_cases hc : c = ':' ∧ rest.head? = some ' ' ∧ rest.tail ≠ []
      · rw [if_pos hc] at h
        simp only [Option.some.injEq, Prod.mk.injEq] at h
        obtain ⟨h1, h2⟩ := h
        subst h1
        subst h2
        obtain ⟨hc1, hc2, hc3⟩ := hc
        subst hc1
        cases rest with
        | nil => exact Option.noConfusion hc2
        | cons d tx0 =>
          simp only [List.head?_cons, Option.some.injEq] at hc2
          subst hc2
          rfl
      · rw [if_neg hc] at h
        exact Option.noConfusion h

theorem splitGreedy_text_ne_nil : ∀ (L sp tx : List Char),
    splitGreedy L = some (sp, tx) → tx ≠ []
  | [], _, _, h => by simp [splitGreedy] at h
  | c :: rest, sp, tx, h => by
    rw [splitGreedy_cons_eq] at h
    cases hr : splitGreedy rest with
    | some p =>
      obtain ⟨a, b⟩ := p
      rw [hr] at h
      simp only [Option.map_some', Option.or_some, Option.some.injEq, Prod.mk.injEq] at h
      obtain ⟨h1, h2⟩ := h
      subst h2
      exact splitGreedy_text_ne_nil rest a b hr
    | none =>
      rw [hr] at h
      simp only [Option.map_none', Option.none_or] at h
      by_cases hc : c = ':' ∧ rest.head? = some ' ' ∧ rest.tail ≠ []
      · rw [if_pos hc] at h
        simp only [Option.some.injEq, Prod.mk.injEq] at h
        obtain ⟨h1, h2⟩ := h
        subst h2
        exact hc.2.2
      · rw [if_neg hc] at h
        exact Option.noConfusion h

theorem splitGreedy_none_no_split : ∀ (L sp tx : List Char),
    splitGreedy L = none → L = sp ++ ':' :: ' ' :: tx → tx = []
  | [], sp, _, _, he => by
    cases sp <;> exact List.noConfusion he
  | c :: rest, sp, tx, h, he => by
    rw [splitGreedy_cons_eq] at h
    cases hr : splitGreedy rest with
    | some p => rw [hr] at h; simp at h
    | none =>
      rw [hr] at h
      simp only [Option.map_none', Option.none_or] at h
      cases sp with
      | nil =>
        injection he with h1 h2
        subst h1
        subst h2
        by_cases ht : tx = []
        · exact ht
        · rw [if_pos ⟨rfl, rfl, by simpa using ht⟩] at h
          exact Option.noConfusion h
      | cons s0 sp' =>
        injection he with h1 h2
        exact splitGreedy_none_no_split rest sp' tx hr h2

/-- The split `splitGreedy` finds is the one at the last admissible `": "`:
any other decomposition with non-empty text has a shorter speaker. -/
theorem splitGreedy_is_last : ∀ (L sp tx : List Char),
    splitGreedy L = some (sp, tx) →
    ∀ sp' tx', L = sp' ++ ':' :: ' ' :: tx' → tx' ≠ [] → sp'.length ≤ sp.length
  | [], _, _, h, _, _, _, _ => by simp [splitGreedy] at h
  | c :: rest, sp, tx, h, sp', tx', he, htx => by
    rw [splitGreedy_cons_eq] at h
    cases hr : splitGreedy rest with
    | some p =>
      obtain ⟨a, b⟩ := p
      rw [hr] at h
      simp only [Option.map_some', Option.or_some, Option.some.injEq, Prod.mk.injEq] at h
      obtain ⟨h1, h2⟩ := h
      subst h1
      subst h2
      cases sp' with
      | nil => simp
      | cons s0 sp'' =>
        injection he with h1 h2
        have := splitGreedy_is_last rest a b hr sp'' tx' h2 htx
        simp only [List.length_cons]
        omega
    | none =>
      cases sp' with
      | nil => simp
      | cons s0 sp'' =>
        injection he with h1 h2
        exact absurd (splitGreedy_none_no_split rest sp'' tx' hr h2) htx

theorem splitFirstOn_eq : ∀ (sep : Char) (l a b : List Char),
    splitFirstOn sep l = some (a, b) → l = a ++ sep :: b
  | _, [], _, _, h => by rw [splitFirstOn] at h; exact Option.noConfusion h
  | sep, c :: rest, a, b, h => by
    rw [splitFirstOn] at h
    by_cases hc : c = sep
    · rw [if_pos hc] at h
      simp only [Option.some.injEq, Prod.mk.injEq] at h
      obtain ⟨h1, h2⟩ := h
      subst h1
      subst h2
      subst hc
      rfl
    · rw [if_neg hc] at h
      cases hr : splitFirstOn sep rest with
      | none => rw [hr] at h; exact Option.noConfusion h
      | some p =>
        obtain ⟨a', b'⟩ := p
        rw [hr] at h
        simp only [Option.map_some', Option.some.injEq, Prod.mk.injEq] at h
        obtain ⟨h1, h2⟩ := h
        subst h1
        subst h2
        rw [List.cons_append, ← splitFirstOn_eq sep rest a' b' hr]

theorem digitVal_le_9 {c : Char} (h : isDigitCh c = true) : digitVal c ≤ 9 := by
  unfold isDigitCh at h
  simp only [Bool.and_eq_true, decide_eq_true_eq] at h
  unfold digitVal
  omega

theorem matchTimestampShape_bounds :
    ∀ (cs : List Char) (q : (Nat × Nat × Nat × Nat) × List Char),
      matchTimestampShape cs = some q →
      q.1.1 ≤ 99 ∧ q.1.2.1 ≤ 99 ∧ q.1.2.2.1 ≤ 99 ∧ q.1.2.2.2 ≤ 999 := by
  intro cs q h
  unfold matchTimestampShape at h
  split at h
  · split at h
    · next hcond =>
      obtain ⟨hc1, hc2, hc3, hall⟩ := hcond
      simp only [List.all_cons, List.all_nil, Bool.and_eq_true, Bool.and_true] at hall
      obtain ⟨d1, d2, d3, d4, d5, d6, d7, d8, d9⟩ := hall
      have b1 := digitVal_le_9 d1
      have b2 := digitVal_le_9 d2
      have b3 := digitVal_le_9 d3
      have b4 := digitVal_le_9 d4
      have b5 := digitVal_le_9 d5
      have b6 := digitVal_le_9 d6
      have b7 := digitVal_le_9 d7
      have b8 := digitVal_le_9 d8
      have b9 := digitVal_le_9 d9
      injection h with h'
      subst h'
      refine ⟨?_, ?_, ?_, ?_⟩ <;> dsimp only <;> omega
    · exact Option.noConfusion h
  · exact Option.noConfusion h

theorem matchTimeline_bounds :
    ∀ (cs : List Char) (q1 q2 : Nat × Nat × Nat × Nat),
      matchTimeline cs = some (q1, q2) →
      (q1.1 ≤ 99 ∧ q1.2.1 ≤ 99 ∧ q1.2.2.1 ≤ 99 ∧ q1.2.2.2 ≤ 999) ∧
      (q2.1 ≤ 99 ∧ q2.2.1 ≤ 99 ∧ q2.2.2.1 ≤ 99 ∧ q2.2.2.2 ≤ 999) := by
  intro cs q1 q2 h
  unfold matchTimeline at h
  split at h
  · exact Option.noConfusion h
  · next q1' rest heq1 =>
    split at h
    · next a b c d e rest2 =>
      split at h
      · split at h
        · next q2' heq2 =>
          injection h with h'
          injection h' with hA hB
          subst hA
          subst hB
          exact ⟨(matchTimestampShape_bounds cs _ heq1 : _),
            (matchTimestampShape_bounds rest2 _ heq2 : _)⟩
        · exact Option.noConfusion h
      · exact Option.noConfusion h
    · exact Option.noConfusion h

theorem parse_time_ok {h m s f : Nat} {v : Int}
    (hok : parse_time h m s f = .ok v) :
    h ≤ 23 ∧ m ≤ 59 ∧ s ≤ 59 ∧
      v = (((h * 3600 + m * 60 + s) * 1000000 + f * 1000 : Nat) : Int) := by
  unfold parse_time at hok
  split at hok
  · next hcond =>
    injection hok with hv
    exact ⟨hcond.1, hcond.2.1, hcond.2.2, hv.symm⟩
  · exact Except.noConfusion hok

theorem parse_time_TimeOK {h m s f : Nat} {v : Int} (hf : f ≤ 999)
    (hok : parse_time h m s f = .ok v) : TimeOK v := by
  obtain ⟨hh, hm, hs, hv⟩ := parse_time_ok hok
  subst hv
  refine ⟨by positivity, ?_, ?_⟩
  · have : (h * 3600 + m * 60 + s) * 1000000 + f * 1000 < 86400000000 := by nlinarith
    exact_mod_cast Int.ofNat_lt.mpr this
  · have : ((h * 3600 + m * 60 + s) * 1000000 + f * 1000) % 1000 = 0 := by omega
    omega

theorem parse_line_ok (b : List Char) (ln : TranscriptLine)
    (h : TranscriptLine.parse_line b = .ok ln) :
    LineOK ln ∧
      ∃ l1 l2, b = l1 ++ '\n' :: (l2 ++ '\n' :: (ln.speaker ++ ':' :: ' ' :: ln.text)) := by
  unfold TranscriptLine.parse_line at h
  split at h
  · exact Except.noConfusion h
  · next l1 r1 heq1 =>
    split at h
    · exact Except.noConfusion h
    · next l2 l3 heq2 =>
      split at h
      · exact Except.noConfusion h
      · next hnl =>
        split at h
        · exact Except.noConfusion h
        · next hln =>
          split at h
          · exact Except.noConfusion h
          · next h1 m1 s1 f1 h2 m2 s2 f2 heq3 =>
            split at h
            · exact Except.noConfusion h
            · next sp tx heq4 =>
              split at h
              · exact Except.noConfusion h
              · next hsp =>
                split at h
                · next st en heqa heqb =>
                  injection h with h'
                  subst h'
                  dsimp only [TranscriptLine.create]
                  have hbounds := matchTimeline_bounds l2 _ _ heq3
                  have hl3 : l3 = sp ++ ':' :: ' ' :: tx := splitGreedy_append l3 sp tx heq4
                  refine ⟨⟨parse_time_TimeOK hbounds.1.2.2.2 heqa,
                      parse_time_TimeOK hbounds.2.2.2.2 heqb, hsp,
                      splitGreedy_text_ne_nil l3 sp tx heq4, ?_, ?_⟩, l1, l2, ?_⟩
                  · rw [← hl3]
                    exact Bool.not_eq_true _ ▸ (by simpa using hnl)
                  · rw [← hl3]
                    exact heq4
                  · rw [← hl3, ← splitFirstOn_eq '\n' r1 l2 l3 heq2,
                      ← splitFirstOn_eq '\n' b l1 r1 heq1]
                · exact Except.noConfusion h
                · exact Except.noConfusion h

/-- Claim C4 counterexample: a block whose third line `a: b: c` contains the
separator twice.  The claim says the split happens at the *first* `": "`,
giving speaker `a` and text `b: c`; the code's greedy `.+` speaker pattern
splits at the *last* one, giving speaker `a: b` and text `c`. -/
theorem C4_counterexample :
    TranscriptLine.parse_line (("1\n00:00:00.000 --> 00:00:01.000\na: b: c").toList) =
      .ok (TranscriptLine.create 0 1000000 (("a: b").toList) (("c").toList)) ∧
    ("a: b").toList ≠ ("a").toList := by
  exact ⟨rfl, by decide⟩

/-- Claim C4 (amended): `parse_line` splits the speaker line at the *last*
occurrence of `": "` that leaves a non-empty text (the `.+` of the speaker
group is greedy): any decomposition of the parsed line into
`speaker' ++ ": " ++ text'` with non-empty `text'` has `speaker'` no longer
than the speaker the parser produced. -/
theorem C4_split_last (b : List Char) (ln : TranscriptLine)
    (h : TranscriptLine.parse_line b = .ok ln) :
    ∀ sp' tx', ln.speaker ++ ':' :: ' ' :: ln.text = sp' ++ ':' :: ' ' :: tx' →
      tx' ≠ [] → sp'.length ≤ ln.speaker.length := by
  obtain ⟨⟨_, _, _, _, _, hsg⟩, _⟩ := parse_line_ok b ln h
  exact splitGreedy_is_last _ _ _ hsg

/-- Witness for C4 (amended) at the two-separator block: the first-split
decomposition (speaker `a`) is not longer than the parsed speaker `a: b`. -/
theorem C4_split_last_witness :
    (("a").toList).length ≤ (("a: b").toList).length :=
  C4_split_last (("1\n00:00:00.000 --> 00:00:01.000\na: b: c").toList)
    (TranscriptLine.create 0 1000000 (("a: b").toList) (("c").toList)) rfl
    (("a").toList) (("b: c").toList) (by decide) (by decide)

/-! ### Digit rendering and reading -/

theorem digitChar_toNat : ∀ n, n < 10 → (Nat.digitChar n).toNat = 48 + n := by decide

theorem isDigitCh_digitChar : ∀ n, n < 10 → isDigitCh (Nat.digitChar n) = true := by decide

theorem digitVal_digitChar : ∀ n, n < 10 → digitVal (Nat.digitChar n) = n := by decide

theorem digitChar_ne_zero : ∀ n, 1 ≤ n → n < 10 → Nat.digitChar n ≠ '0' := by decide

theorem charsToNat_append_singleton (a : List Char) (c : Char) :
    charsToNat (a ++ [c]) = 10 * charsToNat a + (c.toNat - 48) := by
  unfold charsToNat
  rw [List.foldl_append]
  rfl

theorem natToCharsAux_spec : ∀ (fuel n : Nat), n < fuel →
    charsToNat (natToCharsAux fuel n) = n ∧
    natToCharsAux fuel n ≠ [] ∧
    (∀ c ∈ natToCharsAux fuel n, 48 ≤ c.toNat ∧ c.toNat ≤ 57) ∧
    (1 ≤ n → ∀ c, (natToCharsAux fuel n).head? = some c → c ≠ '0')
  | 0, n, hf => absurd hf (Nat.not_lt_zero n)
  | fuel + 1, n, hf => by
    rw [natToCharsAux]
    by_cases h10 : n < 10
    · rw [if_pos h10]
      refine ⟨?_, by simp, ?_, ?_⟩
      · unfold charsToNat
        simp [digitChar_toNat n h10]
      · intro c hc
        simp only [List.mem_singleton] at hc
        subst hc
        rw [digitChar_toNat n h10]
        omega
      · intro hn c hc
        simp only [List.head?_cons, Option.some.injEq] at hc
        subst hc
        exact digitChar_ne_zero n hn h10
    · rw [if_neg h10]
      have hrec : n / 10 < fuel := by omega
      obtain ⟨ih1, ih2, ih3, ih4⟩ := natToCharsAux_spec fuel (n / 10) hrec
      refine ⟨?_, by simp, ?_, ?_⟩
      · rw [charsToNat_append_singleton, ih1, digitChar_toNat (n % 10) (by omega)]
        omega
      · intro c hc
        rw [List.mem_append] at hc
        cases hc with
        | inl h => exact ih3 c h
        | inr h =>
          simp only [List.mem_singleton] at h
          subst h
          rw [digitChar_toNat (n % 10) (by omega)]
          omega
      · intro _ c hc
        cases he : natToCharsAux fuel (n / 10) with
        | nil => exact absurd he ih2
        | cons c0 cs0 =>
          rw [he] at hc
          simp only [List.cons_append, List.head?_cons, Option.some.injEq] at hc
          subst hc
          exact ih4 (by omega) c0 (by rw [he]; rfl)

theorem charsToNat_natToChars (n : Nat) : charsToNat (natToChars n) = n :=
  (natToCharsAux_spec (n + 1) n (by omega)).1

theorem natToChars_ne_nil (n : Nat) : natToChars n ≠ [] :=
  (natToCharsAux_spec (n + 1) n (by omega)).2.1

theorem natToChars_digits (n : Nat) :
    ∀ c ∈ natToChars n, 48 ≤ c.toNat ∧ c.toNat ≤ 57 :=
  (natToCharsAux_spec (n + 1) n (by omega)).2.2.1

theorem natToChars_head_ne_zero {n : Nat} (h : 1 ≤ n) :
    ∀ c, (natToChars n).head? = some c → c ≠ '0' :=
  (natToCharsAux_spec (n + 1) n (by omega)).2.2.2 h

theorem char_ne_of_toNat_bounds {c d : Char} (h1 : 48 ≤ c.toNat) (h2 : c.toNat ≤ 57)
    (h3 : d.toNat < 48 ∨ 57 < d.toNat) : c ≠ d := by
  intro he
  subst he
  omega

theorem charsToNat_replicate_zero_cons :
    ∀ (k : Nat) (l : List Char),
      (List.replicate k '0' ++ l).foldl (fun acc c => 10 * acc + (c.toNat - 48)) 0 =
        l.foldl (fun acc c => 10 * acc + (c.toNat - 48)) 0
  | 0, l => rfl
  | k + 1, l => by
    rw [List.replicate_succ, List.cons_append, List.foldl_cons]
    exact charsToNat_replicate_zero_cons k l

theorem charsToNat_padZeros (w n : Nat) : charsToNat (padZeros w n) = n := by
  unfold padZeros charsToNat
  rw [charsToNat_replicate_zero_cons]
  exact charsToNat_natToChars n

theorem padZeros_digits (w n : Nat) :
    ∀ c ∈ padZeros w n, 48 ≤ c.toNat ∧ c.toNat ≤ 57 := by
  intro c hc
  unfold padZeros at hc
  rw [List.mem_append] at hc
  cases hc with
  | inl h =>
    rw [List.eq_of_mem_replicate h]
    exact ⟨by decide, by decide⟩
  | inr h => exact natToChars_digits n c h

theorem pad2_eq : ∀ n, n ≤ 99 →
    padZeros 2 n = [Nat.digitChar (n / 10), Nat.digitChar (n % 10)] := by decide

set_option maxRecDepth 8000 in
theorem pad3_eq : ∀ n, n ≤ 999 →
    padZeros 3 n =
      [Nat.digitChar (n / 100), Nat.digitChar (n / 10 % 10), Nat.digitChar (n % 10)] := by decide

theorem natToCharsAux_length : ∀ (fuel n k : Nat), n < fuel → n < 10 ^ k → 1 ≤ k →
    (natToCharsAux fuel n).length ≤ k
  | 0, n, _, hf, _, _ => absurd hf (Nat.not_lt_zero n)
  | fuel + 1, n, k, hf, hp, hk => by
    rw [natToCharsAux]
    by_cases h10 : n < 10
    · rw [if_pos h10]
      simpa using hk
    · rw [if_neg h10]
      have hk2 : 2 ≤ k := by
        by_contra hcon
        have hk1 : k = 1 := by omega
        subst hk1
        rw [pow_one] at hp
        omega
      have hpow : (10 : Nat) ^ k = 10 ^ (k - 1) * 10 := by
        rw [← pow_succ]
        congr 1
        omega
      have hdiv : n / 10 < 10 ^ (k - 1) := by
        rw [hpow] at hp
        omega
      have := natToCharsAux_length fuel (n / 10) (k - 1) (by omega) hdiv (by omega)
      rw [List.length_append, List.length_singleton]
      omega

theorem padZeros6_length {n : Nat} (h : n < 1000000) : (padZeros 6 n).length = 6 := by
  have hb : (natToChars n).length ≤ 6 := by
    refine natToCharsAux_length (n + 1) n 6 (by omega) ?_ (by omega)
    norm_num
    omega
  unfold padZeros
  rw [List.length_append, List.length_replicate]
  omega

/-! ### Computing the timestamp formatting pipeline -/

theorem cons_headD_tail {α : Type} (l : List (List α)) (h : l ≠ []) :
    l.headD [] :: l.tail = l := by
  cases l with
  | nil => exact absurd rfl h
  | cons a t => rfl

theorem splitColon_ne_nil : ∀ l : List Char, splitColon l ≠ []
  | [] => by rw [splitColon]; simp
  | c :: rest => by
    rw [splitColon]
    split <;> simp

theorem splitColon_append : ∀ (a cs : List Char), (∀ c ∈ a, c ≠ ':') →
    splitColon (a ++ cs) = (a ++ (splitColon cs).headD []) :: (splitColon cs).tail
  | [], cs, _ => by
    simp only [List.nil_append]
    exact (cons_headD_tail (splitColon cs) (splitColon_ne_nil cs)).symm
  | c :: a', cs, h => by
    rw [List.cons_append, splitColon, if_neg (h c (List.mem_cons_self c a')),
      splitColon_append a' cs (fun x hx => h x (List.mem_cons_of_mem c hx))]
    simp

theorem splitColon_colon (cs : List Char) : splitColon (':' :: cs) = [] :: splitColon cs := by
  rw [splitColon, if_pos rfl]

theorem splitColon_append_colon (a rest : List Char) (ha : ∀ c ∈ a, c ≠ ':') :
    splitColon (a ++ ':' :: rest) = a :: splitColon rest := by
  rw [splitColon_append a (':' :: rest) ha, splitColon_colon]
  simp

theorem splitColon_no_colon (l : List Char) (h : ∀ c ∈ l, c ≠ ':') : splitColon l = [l] := by
  have h0 := splitColon_append l [] h
  rw [List.append_nil] at h0
  have h1 : splitColon ([] : List Char) = [[]] := by rw [splitColon]
  rw [h0, h1]
  simp

theorem splitFirstOn_append (sep : Char) : ∀ (a b : List Char), (∀ c ∈ a, c ≠ sep) →
    splitFirstOn sep (a ++ sep :: b) = some (a, b)
  | [], b, _ => by rw [List.nil_append, splitFirstOn, if_pos rfl]
  | c :: a', b, h => by
    rw [List.cons_append, splitFirstOn, if_neg (h c (List.mem_cons_self c a')),
      splitFirstOn_append sep a' b (fun x hx => h x (List.mem_cons_of_mem c hx))]
    rfl

theorem splitFirstOn_none (sep : Char) : ∀ l : List Char, (∀ c ∈ l, c ≠ sep) →
    splitFirstOn sep l = none
  | [], _ => rfl
  | c :: l, h => by
    rw [splitFirstOn, if_neg (h c (List.mem_cons_self c l)),
      splitFirstOn_none sep l (fun x hx => h x (List.mem_cons_of_mem c hx))]
    rfl

theorem digit_ne_colon {c : Char} (h1 : 48 ≤ c.toNat) (h2 : c.toNat ≤ 57) : c ≠ ':' :=
  char_ne_of_toNat_bounds h1 h2 (by decide)

theorem digit_ne_dot {c : Char} (h1 : 48 ≤ c.toNat) (h2 : c.toNat ≤ 57) : c ≠ '.' :=
  char_ne_of_toNat_bounds h1 h2 (by decide)

theorem digit_ne_nl {c : Char} (h1 : 48 ≤ c.toNat) (h2 : c.toNat ≤ 57) : c ≠ '\n' :=
  char_ne_of_toNat_bounds h1 h2 (by decide)

theorem TimeOK_decomp {v : Int} (hv : TimeOK v) :
    ∃ h m s ms : Nat, h ≤ 23 ∧ m ≤ 59 ∧ s ≤ 59 ∧ ms ≤ 999 ∧
      v = (((h * 3600 + m * 60 + s) * 1000000 + ms * 1000 : Nat) : Int) := by
  obtain ⟨h0, h1, h2⟩ := hv
  have hveq : v = (v.toNat : Int) := (Int.toNat_of_nonneg h0).symm
  have hlt : v.toNat < 86400000000 := by omega
  have hmod : v.toNat % 1000 = 0 := by omega
  refine ⟨v.toNat / 3600000000, v.toNat / 60000000 % 60, v.toNat / 1000000 % 60,
    v.toNat % 1000000 / 1000, by omega, by omega, by omega, by omega, ?_⟩
  rw [hveq]
  congr 1
  omega

theorem strTimedelta_eq (h m s ms : Nat) (hh : h ≤ 23) (hm : m ≤ 59) (hs : s ≤ 59)
    (hms : ms ≤ 999) :
    strTimedelta (((h * 3600 + m * 60 + s) * 1000000 + ms * 1000 : Nat) : Int) =
      natToChars h ++ ':' :: padZeros 2 m ++ ':' :: padZeros 2 s ++
        (if ms = 0 then [] else '.' :: padZeros 6 (ms * 1000)) := by
  simp only [strTimedelta]
  have ht : (((h * 3600 + m * 60 + s) * 1000000 + ms * 1000 : Nat) : Int).toNat =
      (h * 3600 + m * 60 + s) * 1000000 + ms * 1000 := by omega
  rw [ht]
  have e1 : ((h * 3600 + m * 60 + s) * 1000000 + ms * 1000) % 1000000 = ms * 1000 := by
    omega
  have e2 : ((h * 3600 + m * 60 + s) * 1000000 + ms * 1000) / 1000000 =
      h * 3600 + m * 60 + s := by omega
  rw [e1, e2]
  have e3 : (h * 3600 + m * 60 + s) % 60 = s := by omega
  have e4 : (h * 3600 + m * 60 + s) / 60 % 60 = m := by omega
  have e5 : (h * 3600 + m * 60 + s) / 3600 % 24 = h := by omega
  have e6 : (h * 3600 + m * 60 + s) / 86400 = 0 := by omega
  rw [e3, e4, e5, e6, if_pos rfl, List.nil_append]
  by_cases hz : ms = 0
  · rw [if_pos (by omega), if_pos hz]
  · rw [if_neg (by omega), if_neg hz]

theorem charsToNat_replicate_zero (k : Nat) : charsToNat (List.replicate k '0') = 0 := by
  have h0 := charsToNat_replicate_zero_cons k []
  rw [List.append_nil] at h0
  exact h0

theorem fmtLast_no_fraction (s : Nat) :
    fmtLast063f (padZeros 2 s) = padZeros 2 s ++ '.' :: padZeros 3 0 := by
  unfold fmtLast063f splitDot
  rw [splitFirstOn_none '.' (padZeros 2 s)
    (fun c hc => digit_ne_dot (padZeros_digits 2 s c hc).1 (padZeros_digits 2 s c hc).2)]
  simp only [List.nil_append, List.take_replicate]
  rw [charsToNat_padZeros, charsToNat_replicate_zero]

theorem fmtLast_fraction (s ms : Nat) (hms : ms ≤ 999) :
    fmtLast063f (padZeros 2 s ++ '.' :: padZeros 6 (ms * 1000)) =
      padZeros 2 s ++ '.' :: padZeros 3 ms := by
  unfold fmtLast063f splitDot
  rw [splitFirstOn_append '.' (padZeros 2 s) (padZeros 6 (ms * 1000))
    (fun c hc => digit_ne_dot (padZeros_digits 2 s c hc).1 (padZeros_digits 2 s c hc).2)]
  have hlen : (padZeros 6 (ms * 1000)).length = 6 := padZeros6_length (by omega)
  have htake : (padZeros 6 (ms * 1000) ++ List.replicate 6 '0').take 6 =
      padZeros 6 (ms * 1000) := List.take_left' hlen
  simp only
  rw [htake, charsToNat_padZeros, charsToNat_padZeros]
  have hdiv : ms * 1000 / 1000 = ms := by omega
  rw [hdiv]

theorem joinBlocks_three (sep A B C : List Char) :
    joinBlocks sep [A, B, C] = A ++ sep ++ (B ++ sep ++ C) :=
  rfl

theorem formatTimestamp_eq (h m s ms : Nat) (hh : h ≤ 23) (hm : m ≤ 59) (hs : s ≤ 59)
    (hms : ms ≤ 999) :
    formatTimestamp (((h * 3600 + m * 60 + s) * 1000000 + ms * 1000 : Nat) : Int) =
      padZeros 2 h ++ ':' :: (padZeros 2 m ++ ':' :: (padZeros 2 s ++ '.' :: padZeros 3 ms)) := by
  simp only [formatTimestamp]
  rw [strTimedelta_eq h m s ms hh hm hs hms]
  have hA : ∀ c ∈ natToChars h, c ≠ ':' :=
    fun c hc => digit_ne_colon (natToChars_digits h c hc).1 (natToChars_digits h c hc).2
  have hB : ∀ c ∈ padZeros 2 m, c ≠ ':' :=
    fun c hc => digit_ne_colon (padZeros_digits 2 m c hc).1 (padZeros_digits 2 m c hc).2
  have hC : ∀ c ∈ padZeros 2 s ++ (if ms = 0 then [] else '.' :: padZeros 6 (ms * 1000)),
      c ≠ ':' := by
    intro c hc
    rw [List.mem_append] at hc
    cases hc with
    | inl hc => exact digit_ne_colon (padZeros_digits 2 s c hc).1 (padZeros_digits 2 s c hc).2
    | inr hc =>
      by_cases hz : ms = 0
      · rw [if_pos hz] at hc
        exact absurd hc (List.not_mem_nil c)
      · rw [if_neg hz] at hc
        cases hc with
        | head => decide
        | tail _ hc =>
          exact digit_ne_colon (padZeros_digits 6 (ms * 1000) c hc).1
            (padZeros_digits 6 (ms * 1000) c hc).2
  have hsplit : splitColon (natToChars h ++ ':' :: padZeros 2 m ++ ':' :: padZeros 2 s ++
      (if ms = 0 then [] else '.' :: padZeros 6 (ms * 1000))) =
      [natToChars h, padZeros 2 m,
        padZeros 2 s ++ (if ms = 0 then [] else '.' :: padZeros 6 (ms * 1000))] := by
    rw [show natToChars h ++ ':' :: padZeros 2 m ++ ':' :: padZeros 2 s ++
        (if ms = 0 then [] else '.' :: padZeros 6 (ms * 1000)) =
        natToChars h ++ ':' :: (padZeros 2 m ++ ':' ::
          (padZeros 2 s ++ (if ms = 0 then [] else '.' :: padZeros 6 (ms * 1000)))) from by
      simp [List.append_assoc]]
    rw [splitColon_append_colon _ _ hA, splitColon_append_colon _ _ hB,
      splitColon_no_colon _ hC]
  rw [hsplit]
  simp only [List.dropLast_cons₂, List.dropLast_single, List.map_cons, List.map_nil,
    List.getLastD_cons, List.getLastD_nil]
  rw [charsToNat_natToChars, charsToNat_padZeros]
  by_cases hz : ms = 0
  · rw [if_pos hz]
    rw [List.append_nil, fmtLast_no_fraction, hz]
    rw [show [padZeros 2 h, padZeros 2 m] ++ [padZeros 2 s ++ '.' :: padZeros 3 0] =
      [padZeros 2 h, padZeros 2 m, padZeros 2 s ++ '.' :: padZeros 3 0] from rfl]
    rw [joinBlocks_three]
    simp
  · rw [if_neg hz]
    rw [fmtLast_fraction s ms hms]
    rw [show [padZeros 2 h, padZeros 2 m] ++ [padZeros 2 s ++ '.' :: padZeros 3 ms] =
      [padZeros 2 h, padZeros 2 m, padZeros 2 s ++ '.' :: padZeros 3 ms] from rfl]
    rw [joinBlocks_three]
    simp

theorem char_eq_of_toNat_eq {c d : Char} (h : c.toNat = d.toNat) : c = d := by
  apply Char.ext
  apply UInt32.ext
  exact h

theorem isDigitCh_of_bounds {c : Char} (h1 : 48 ≤ c.toNat) (h2 : c.toNat ≤ 57) :
    isDigitCh c = true := by
  unfold isDigitCh
  simp [h1, h2]

theorem formatTimestamp_digits (h m s ms : Nat) (hh : h ≤ 23) (hm : m ≤ 59) (hs : s ≤ 59)
    (hms : ms ≤ 999) :
    formatTimestamp (((h * 3600 + m * 60 + s) * 1000000 + ms * 1000 : Nat) : Int) =
      tsDigits h m s ms := by
  rw [formatTimestamp_eq h m s ms hh hm hs hms, pad2_eq h (by omega), pad2_eq m (by omega),
    pad2_eq s (by omega), pad3_eq ms (by omega)]
  rfl

theorem tsDigits_digits (h m s ms : Nat) (hh : h ≤ 99) (hm : m ≤ 99) (hs : s ≤ 99)
    (hms : ms ≤ 999) :
    ∀ c ∈ tsDigits h m s ms, (48 ≤ c.toNat ∧ c.toNat ≤ 57) ∨ c = ':' ∨ c = '.' := by
  intro c hc
  unfold tsDigits at hc
  have hd : ∀ k : Nat, k < 10 → 48 ≤ (Nat.digitChar k).toNat ∧ (Nat.digitChar k).toNat ≤ 57 := by
    intro k hk
    rw [digitChar_toNat k hk]
    omega
  simp only [List.mem_cons, List.not_mem_nil, or_false] at hc
  rcases hc with rfl | rfl | rfl | rfl | rfl | rfl | rfl | rfl | rfl | rfl | rfl | rfl
  · exact Or.inl (hd _ (by omega))
  · exact Or.inl (hd _ (by omega))
  · exact Or.inr (Or.inl rfl)
  · exact Or.inl (hd _ (by omega))
  · exact Or.inl (hd _ (by omega))
  · exact Or.inr (Or.inl rfl)
  · exact Or.inl (hd _ (by omega))
  · exact Or.inl (hd _ (by omega))
  · exact Or.inr (Or.inr rfl)
  · exact Or.inl (hd _ (by omega))
  · exact Or.inl (hd _ (by omega))
  · exact Or.inl (hd _ (by omega))

theorem tsDigits_ne_nl (h m s ms : Nat) (hh : h ≤ 99) (hm : m ≤ 99) (hs : s ≤ 99)
    (hms : ms ≤ 999) : ∀ c ∈ tsDigits h m s ms, c ≠ '\n' := by
  intro c hc
  rcases tsDigits_digits h m s ms hh hm hs hms c hc with ⟨h1, h2⟩ | rfl | rfl
  · exact digit_ne_nl h1 h2
  · decide
  · decide

theorem tsDigits_shape (h m s ms : Nat) (hh : h ≤ 99) (hm : m ≤ 99) (hs : s ≤ 99)
    (hms : ms ≤ 999) (rest : List Char) :
    matchTimestampShape (tsDigits h m s ms ++ rest) = some ((h, m, s, ms), rest) := by
  simp only [tsDigits, List.cons_append, List.nil_append]
  dsimp only [matchTimestampShape]
  rw [if_pos ⟨rfl, rfl, rfl, by
    simp only [List.all_cons, List.all_nil, Bool.and_eq_true, Bool.and_true]
    exact ⟨isDigitCh_digitChar _ (by omega), isDigitCh_digitChar _ (by omega),
      isDigitCh_digitChar _ (by omega), isDigitCh_digitChar _ (by omega),
      isDigitCh_digitChar _ (by omega), isDigitCh_digitChar _ (by omega),
      isDigitCh_digitChar _ (by omega), isDigitCh_digitChar _ (by omega),
      isDigitCh_digitChar _ (by omega)⟩⟩]
  rw [digitVal_digitChar (h / 10) (by omega), digitVal_digitChar (h % 10) (by omega),
    digitVal_digitChar (m / 10) (by omega), digitVal_digitChar (m % 10) (by omega),
    digitVal_digitChar (s / 10) (by omega), digitVal_digitChar (s % 10) (by omega),
    digitVal_digitChar (ms / 100) (by omega), digitVal_digitChar (ms / 10 % 10) (by omega),
    digitVal_digitChar (ms % 10) (by omega)]
  have e1 : 10 * (h / 10) + h % 10 = h := by omega
  have e2 : 10 * (m / 10) + m % 10 = m := by omega
  have e3 : 10 * (s / 10) + s % 10 = s := by omega
  have e4 : 100 * (ms / 100) + 10 * (ms / 10 % 10) + ms % 10 = ms := by omega
  rw [e1, e2, e3, e4]

theorem tsDigits_shape_nil (h m s ms : Nat) (hh : h ≤ 99) (hm : m ≤ 99) (hs : s ≤ 99)
    (hms : ms ≤ 999) :
    matchTimestampShape (tsDigits h m s ms) = some ((h, m, s, ms), []) := by
  have h0 := tsDigits_shape h m s ms hh hm hs hms []
  rwa [List.append_nil] at h0

theorem matchTimeline_format (h1 m1 s1 f1 h2 m2 s2 f2 : Nat)
    (hh1 : h1 ≤ 99) (hm1 : m1 ≤ 99) (hs1 : s1 ≤ 99) (hf1 : f1 ≤ 999)
    (hh2 : h2 ≤ 99) (hm2 : m2 ≤ 99) (hs2 : s2 ≤ 99) (hf2 : f2 ≤ 999) :
    matchTimeline (tsDigits h1 m1 s1 f1 ++
        ' ' :: '-' :: '-' :: '>' :: ' ' :: tsDigits h2 m2 s2 f2) =
      some ((h1, m1, s1, f1), (h2, m2, s2, f2)) := by
  unfold matchTimeline
  rw [tsDigits_shape h1 m1 s1 f1 hh1 hm1 hs1 hf1
    (' ' :: '-' :: '-' :: '>' :: ' ' :: tsDigits h2 m2 s2 f2)]
  dsimp only
  rw [if_pos ⟨rfl, rfl, rfl, rfl, rfl⟩]
  rw [tsDigits_shape_nil h2 m2 s2 f2 hh2 hm2 hs2 hf2]

theorem matchLineNum_natToChars (k : Nat) (hk : 1 ≤ k) :
    matchLineNum (natToChars k) = true := by
  cases hc : natToChars k with
  | nil => exact absurd hc (natToChars_ne_nil k)
  | cons c rest =>
    rw [matchLineNum]
    have hd := natToChars_digits k c (by rw [hc]; exact List.mem_cons_self c rest)
    have hz := natToChars_head_ne_zero hk c (by rw [hc]; rfl)
    have h49 : 49 ≤ c.toNat := by
      by_contra hcon
      have h48 : c.toNat = 48 := by omega
      exact hz (char_eq_of_toNat_eq h48)
    have hall : rest.all isDigitCh = true := by
      rw [List.all_eq_true]
      intro x hx
      have := natToChars_digits k x (by rw [hc]; exact List.mem_cons_of_mem c hx)
      exact isDigitCh_of_bounds this.1 this.2
    simp [h49, hd.2, hall]

theorem parse_line_str (ln : TranscriptLine) (hok : LineOK ln) (k : Nat) (hk : 1 ≤ k) :
    TranscriptLine.parse_line (natToChars k ++ '\n' :: ln.str) = .ok ln := by
  obtain ⟨hst, hen, hspne, htxne, hcont, hsg⟩ := hok
  obtain ⟨h1, m1, s1, f1, hh1, hm1, hs1, hf1, hst_eq⟩ := TimeOK_decomp hst
  obtain ⟨h2, m2, s2, f2, hh2, hm2, hs2, hf2, hen_eq⟩ := TimeOK_decomp hen
  have hfts1 : formatTimestamp ln.start_time = tsDigits h1 m1 s1 f1 := by
    rw [hst_eq]
    exact formatTimestamp_digits h1 m1 s1 f1 hh1 hm1 hs1 hf1
  have hfts2 : formatTimestamp ln.end_time = tsDigits h2 m2 s2 f2 := by
    rw [hen_eq]
    exact formatTimestamp_digits h2 m2 s2 f2 hh2 hm2 hs2 hf2
  have hstr_eq : ln.str =
      (tsDigits h1 m1 s1 f1 ++ ' ' :: '-' :: '-' :: '>' :: ' ' :: tsDigits h2 m2 s2 f2) ++
        '\n' :: (ln.speaker ++ ':' :: ' ' :: ln.text) := by
    rw [TranscriptLine.str, hfts1, hfts2]
    simp [List.append_assoc]
  have hnn1 : ∀ c ∈ natToChars k, c ≠ '\n' := fun c hc =>
    digit_ne_nl (natToChars_digits k c hc).1 (natToChars_digits k c hc).2
  have hnnA : ∀ c ∈ tsDigits h1 m1 s1 f1 ++
      ' ' :: '-' :: '-' :: '>' :: ' ' :: tsDigits h2 m2 s2 f2, c ≠ '\n' := by
    intro c hc
    rw [List.mem_append] at hc
    rcases hc with hc | hc
    · exact tsDigits_ne_nl h1 m1 s1 f1 (by omega) (by omega) (by omega) (by omega) c hc
    · simp only [List.mem_cons] at hc
      rcases hc with rfl | rfl | rfl | rfl | rfl | hc
      · decide
      · decide
      · decide
      · decide
      · decide
      · exact tsDigits_ne_nl h2 m2 s2 f2 (by omega) (by omega) (by omega) (by omega) c hc
  have hsplit1 : splitFirstOn '\n' (natToChars k ++ '\n' :: ln.str) =
      some (natToChars k, ln.str) :=
    splitFirstOn_append '\n' (natToChars k) ln.str hnn1
  have hsplit2 : splitFirstOn '\n' ln.str =
      some (tsDigits h1 m1 s1 f1 ++ ' ' :: '-' :: '-' :: '>' :: ' ' :: tsDigits h2 m2 s2 f2,
        ln.speaker ++ ':' :: ' ' :: ln.text) := by
    rw [hstr_eq]
    exact splitFirstOn_append '\n' _ _ hnnA
  have hml : matchTimeline (tsDigits h1 m1 s1 f1 ++
      ' ' :: '-' :: '-' :: '>' :: ' ' :: tsDigits h2 m2 s2 f2) =
      some ((h1, m1, s1, f1), (h2, m2, s2, f2)) :=
    matchTimeline_format h1 m1 s1 f1 h2 m2 s2 f2 (by omega) (by omega) (by omega) hf1
      (by omega) (by omega) (by omega) hf2
  have hpt1 : parse_time h1 m1 s1 f1 = .ok ln.start_time := by
    unfold parse_time
    rw [if_pos ⟨hh1, hm1, hs1⟩, ← hst_eq]
  have hpt2 : parse_time h2 m2 s2 f2 = .ok ln.end_time := by
    unfold parse_time
    rw [if_pos ⟨hh2, hm2, hs2⟩, ← hen_eq]
  unfold TranscriptLine.parse_line
  rw [hsplit1]
  dsimp only
  rw [hsplit2]
  dsimp only
  rw [if_neg (by rw [Bool.not_eq_true]; exact hcont),
    if_neg (by simp [matchLineNum_natToChars k hk]), hml]
  dsimp only
  rw [hsg]
  dsimp only
  rw [if_neg hspne, hpt1, hpt2]
  rfl

/-! ### Splitting on blank lines -/

theorem splitNlNl_nil : splitNlNl [] = [[]] := by rw [splitNlNl]

theorem splitNlNl_single (c : Char) : splitNlNl [c] = [[c]] := by rw [splitNlNl]

theorem splitNlNl_ne_nil : ∀ l : List Char, splitNlNl l ≠ []
  | [] => by rw [splitNlNl_nil]; simp
  | [c] => by rw [splitNlNl_single]; simp
  | c :: d :: rest => by
    rw [splitNlNl]
    split <;> simp

theorem splitNlNl_append_no_nl : ∀ (a cs : List Char), (∀ c ∈ a, c ≠ '\n') →
    splitNlNl (a ++ cs) = (a ++ (splitNlNl cs).headD []) :: (splitNlNl cs).tail
  | [], cs, _ => by
    simp only [List.nil_append]
    exact (cons_headD_tail (splitNlNl cs) (splitNlNl_ne_nil cs)).symm
  | c :: a', cs, h => by
    have hc : c ≠ '\n' := h c (List.mem_cons_self c a')
    cases hac : a' ++ cs with
    | nil =>
      obtain ⟨ha', hcs⟩ := List.append_eq_nil.mp hac
      subst ha'
      subst hcs
      simp only [List.nil_append, List.append_nil]
      rw [splitNlNl_single, splitNlNl_nil]
      simp
    | cons d rest2 =>
      rw [List.cons_append, hac, splitNlNl, if_neg (fun hcon => hc hcon.1), ← hac,
        splitNlNl_append_no_nl a' cs (fun x hx => h x (List.mem_cons_of_mem c hx))]
      simp

theorem splitNlNl_nl_cons : ∀ (cs : List Char), cs.head? ≠ some '\n' →
    splitNlNl ('\n' :: cs) = ('\n' :: (splitNlNl cs).headD []) :: (splitNlNl cs).tail
  | [], _ => by
    rw [splitNlNl_single, splitNlNl_nil]
    simp
  | d :: rest, h => by
    have hd : d ≠ '\n' := fun hcon => h (by rw [hcon]; rfl)
    rw [splitNlNl, if_neg (fun hcon => hd hcon.2)]

theorem splitNlNl_nlnl (rest : List Char) :
    splitNlNl ('\n' :: '\n' :: rest) = [] :: splitNlNl rest := by
  rw [splitNlNl, if_pos ⟨rfl, rfl⟩]

theorem splitNlNl_no_nl (l : List Char) (h : ∀ c ∈ l, c ≠ '\n') : splitNlNl l = [l] := by
  have h0 := splitNlNl_append_no_nl l [] h
  rw [List.append_nil] at h0
  rw [h0, splitNlNl_nil]
  simp

theorem head?_ne_nl_of_no_nl {l : List Char} (hl : ∀ c ∈ l, c ≠ '\n') (hne : l ≠ [])
    (cs : List Char) : (l ++ cs).head? ≠ some '\n' := by
  cases l with
  | nil => exact absurd rfl hne
  | cons a t =>
    rw [List.cons_append, List.head?_cons]
    intro hcon
    injection hcon with hcon
    exact hl a (List.mem_cons_self a t) hcon

theorem splitNlNl_block (x y z rest : List Char)
    (hx : ∀ c ∈ x, c ≠ '\n') (hy : ∀ c ∈ y, c ≠ '\n') (hz : ∀ c ∈ z, c ≠ '\n')
    (hyne : y ≠ []) (hzne : z ≠ []) :
    splitNlNl (x ++ '\n' :: (y ++ '\n' :: (z ++ '\n' :: '\n' :: rest))) =
      (x ++ '\n' :: (y ++ '\n' :: z)) :: splitNlNl rest := by
  have e1 : splitNlNl (z ++ '\n' :: '\n' :: rest) = z :: splitNlNl rest := by
    rw [splitNlNl_append_no_nl z _ hz, splitNlNl_nlnl]
    simp
  have e2 : splitNlNl ('\n' :: (z ++ '\n' :: '\n' :: rest)) =
      ('\n' :: z) :: splitNlNl rest := by
    rw [splitNlNl_nl_cons _ (head?_ne_nl_of_no_nl hz hzne _), e1]
    simp
  have e3 : splitNlNl (y ++ '\n' :: (z ++ '\n' :: '\n' :: rest)) =
      (y ++ '\n' :: z) :: splitNlNl rest := by
    rw [splitNlNl_append_no_nl y _ hy, e2]
    simp
  have e4 : splitNlNl ('\n' :: (y ++ '\n' :: (z ++ '\n' :: '\n' :: rest))) =
      ('\n' :: (y ++ '\n' :: z)) :: splitNlNl rest := by
    rw [splitNlNl_nl_cons _ (head?_ne_nl_of_no_nl hy hyne _), e3]
    simp
  rw [splitNlNl_append_no_nl x _ hx, e4]
  simp

theorem splitNlNl_block_one (x y z : List Char)
    (hx : ∀ c ∈ x, c ≠ '\n') (hy : ∀ c ∈ y, c ≠ '\n') (hz : ∀ c ∈ z, c ≠ '\n')
    (hyne : y ≠ []) (hzne : z ≠ []) :
    splitNlNl (x ++ '\n' :: (y ++ '\n' :: z)) = [x ++ '\n' :: (y ++ '\n' :: z)] := by
  have e1 : splitNlNl z = [z] := splitNlNl_no_nl z hz
  have hzhead : z.head? ≠ some '\n' := by
    cases z with
    | nil => exact absurd rfl hzne
    | cons a t =>
      rw [List.head?_cons]
      intro hcon
      injection hcon with hcon
      exact hz a (List.mem_cons_self a t) hcon
  have e2 : splitNlNl ('\n' :: z) = ['\n' :: z] := by
    rw [splitNlNl_nl_cons z hzhead, e1]
    simp
  have e3 : splitNlNl (y ++ '\n' :: z) = [y ++ '\n' :: z] := by
    rw [splitNlNl_append_no_nl y _ hy, e2]
    simp
  have e4 : splitNlNl ('\n' :: (y ++ '\n' :: z)) = ['\n' :: (y ++ '\n' :: z)] := by
    rw [splitNlNl_nl_cons _ (head?_ne_nl_of_no_nl hy hyne _), e3]
    simp
  rw [splitNlNl_append_no_nl x _ hx, e4]
  simp

theorem splitNlNl_joinBlocks :
    ∀ bs : List (List Char), bs ≠ [] →
      (∀ b ∈ bs, ∃ x y z, b = x ++ '\n' :: (y ++ '\n' :: z) ∧
        (∀ c ∈ x, c ≠ '\n') ∧ (∀ c ∈ y, c ≠ '\n') ∧ (∀ c ∈ z, c ≠ '\n') ∧
        y ≠ [] ∧ z ≠ []) →
      splitNlNl (joinBlocks ['\n', '\n'] bs) = bs
  | [], h, _ => absurd rfl h
  | [b], _, hall => by
    obtain ⟨x, y, z, hb, hx, hy, hz, hyne, hzne⟩ := hall b (by simp)
    rw [show joinBlocks ['\n', '\n'] [b] = b from rfl, hb]
    exact splitNlNl_block_one x y z hx hy hz hyne hzne
  | b :: b2 :: bs, _, hall => by
    obtain ⟨x, y, z, hb, hx, hy, hz, hyne, hzne⟩ := hall b (by simp)
    have hj : joinBlocks ['\n', '\n'] (b :: b2 :: bs) =
        b ++ ['\n', '\n'] ++ joinBlocks ['\n', '\n'] (b2 :: bs) := rfl
    rw [hj, hb]
    rw [show (x ++ '\n' :: (y ++ '\n' :: z)) ++ ['\n', '\n'] ++
        joinBlocks ['\n', '\n'] (b2 :: bs) =
        x ++ '\n' :: (y ++ '\n' :: (z ++ '\n' :: '\n' ::
          joinBlocks ['\n', '\n'] (b2 :: bs))) from by simp [List.append_assoc]]
    rw [splitNlNl_block x y z _ hx hy hz hyne hzne, ← hb]
    rw [splitNlNl_joinBlocks (b2 :: bs) (by simp)
      (fun b' hb' => hall b' (List.mem_cons_of_mem b hb'))]

theorem joinBlocks_splitNlNl : ∀ s : List Char, joinBlocks ['\n', '\n'] (splitNlNl s) = s
  | [] => by rw [splitNlNl_nil]; rfl
  | [c] => by rw [splitNlNl_single]; rfl
  | c :: d :: rest => by
    rw [splitNlNl]
    by_cases h : c = '\n' ∧ d = '\n'
    · rw [if_pos h]
      cases hs : splitNlNl rest with
      | nil => exact absurd hs (splitNlNl_ne_nil rest)
      | cons r rs =>
        have hj : joinBlocks ['\n', '\n'] ([] :: r :: rs) =
            [] ++ ['\n', '\n'] ++ joinBlocks ['\n', '\n'] (r :: rs) := rfl
        rw [hj, ← hs, joinBlocks_splitNlNl rest, h.1, h.2]
        rfl
    · rw [if_neg h]
      cases hs : splitNlNl (d :: rest) with
      | nil => exact absurd hs (splitNlNl_ne_nil (d :: rest))
      | cons r rs =>
        have hIH := joinBlocks_splitNlNl (d :: rest)
        rw [hs] at hIH
        simp only [List.headD_cons, List.tail_cons]
        cases rs with
        | nil =>
          have hr : r = d :: rest := hIH
          rw [show joinBlocks ['\n', '\n'] [c :: r] = c :: r from rfl, hr]
        | cons r2 rs2 =>
          have hj1 : joinBlocks ['\n', '\n'] ((c :: r) :: r2 :: rs2) =
              (c :: r) ++ ['\n', '\n'] ++ joinBlocks ['\n', '\n'] (r2 :: rs2) := rfl
          have hj2 : joinBlocks ['\n', '\n'] (r :: r2 :: rs2) =
              r ++ ['\n', '\n'] ++ joinBlocks ['\n', '\n'] (r2 :: rs2) := rfl
          rw [hj2] at hIH
          rw [hj1, show ((c :: r) ++ ['\n', '\n'] ++ joinBlocks ['\n', '\n'] (r2 :: rs2)) =
            c :: (r ++ ['\n', '\n'] ++ joinBlocks ['\n', '\n'] (r2 :: rs2)) from by simp, hIH]

theorem getLast?_append_right {α : Type} (l1 l2 : List α) (h : l2 ≠ []) :
    (l1 ++ l2).getLast? = l2.getLast? := by
  rw [List.getLast?_append]
  cases hl : l2.getLast? with
  | none => exact absurd (List.getLast?_eq_none_iff.mp hl) h
  | some a => rfl

theorem getLast?_joinBlocks (sep : List Char) :
    ∀ (bs : List (List Char)) (b : List Char), bs.getLast? = some b → b ≠ [] →
      (joinBlocks sep bs).getLast? = b.getLast?
  | [], b, h, _ => by simp at h
  | [b0], b, h, hne => by
    simp only [List.getLast?_singleton, Option.some.injEq] at h
    subst h
    rfl
  | b0 :: b1 :: bs, b, h, hne => by
    rw [List.getLast?_cons_cons] at h
    have hIH := getLast?_joinBlocks sep (b1 :: bs) b h hne
    have hbsome : b.getLast? ≠ none := by
      intro hcon
      exact hne (List.getLast?_eq_none_iff.mp hcon)
    have hJne : joinBlocks sep (b1 :: bs) ≠ [] := by
      intro hcon
      rw [hcon] at hIH
      exact hbsome hIH.symm
    have hj : joinBlocks sep (b0 :: b1 :: bs) =
        b0 ++ sep ++ joinBlocks sep (b1 :: bs) := rfl
    rw [hj, List.append_assoc, getLast?_append_right b0 _ (by
        intro hcon
        obtain ⟨-, h2⟩ := List.append_eq_nil.mp hcon
        exact hJne h2),
      getLast?_append_right sep _ hJne, hIH]

/-! ### Python strip -/

theorem head?_dropWhile_false {p : Char → Bool} : ∀ (l : List Char) (c : Char),
    (l.dropWhile p).head? = some c → p c = false
  | [], c, h => by simp [List.dropWhile] at h
  | a :: l, c, h => by
    by_cases hp : p a = true
    · rw [List.dropWhile_cons_of_pos hp] at h
      exact head?_dropWhile_false l c h
    · rw [List.dropWhile_cons_of_neg hp] at h
      rw [List.head?_cons] at h
      injection h with h
      subst h
      simpa using hp

theorem pyStrip_getLast?_not_space (l : List Char) (c : Char)
    (h : (pyStrip l).getLast? = some c) : pyIsSpace c = false := by
  unfold pyStrip at h
  rw [List.getLast?_reverse] at h
  exact head?_dropWhile_false _ c h

theorem pyStrip_eq_self (l : List Char)
    (hh : ∀ c, l.head? = some c → pyIsSpace c = false)
    (hl : ∀ c, l.getLast? = some c → pyIsSpace c = false) : pyStrip l = l := by
  unfold pyStrip
  have h1 : l.dropWhile pyIsSpace = l := by
    cases l with
    | nil => rfl
    | cons a t =>
      rw [List.dropWhile_cons_of_neg (by rw [hh a rfl]; simp)]
  rw [h1]
  have h2 : l.reverse.dropWhile pyIsSpace = l.reverse := by
    cases hr : l.reverse with
    | nil => rfl
    | cons a t =>
      have ha : l.getLast? = some a := by
        rw [← List.head?_reverse, hr, List.head?_cons]
      rw [List.dropWhile_cons_of_neg (by rw [hl a ha]; simp)]
  rw [h2, List.reverse_reverse]

/-! ### Transcript-level parsing facts -/

theorem no_nl_of_contains_false {l : List Char} (h : l.contains '\n' = false) :
    ∀ c ∈ l, c ≠ '\n' := by
  intro c hc hce
  subst hce
  have : l.contains '\n' = true := List.elem_eq_true_of_mem hc
  rw [h] at this
  exact Bool.noConfusion this

theorem parse_blocks_ok : ∀ (bs : List (List Char)) (t0 t : Transcript),
    parse_blocks t0 bs = .ok t →
    ∃ ls, List.Forall₂ (fun b ln => TranscriptLine.parse_line b = .ok ln) bs ls ∧
      t = ls.foldl Transcript.add_item t0
  | [], t0, t, h => by
    rw [parse_blocks] at h
    injection h with h'
    exact ⟨[], .nil, h'.symm⟩
  | b :: bs, t0, t, h => by
    rw [parse_blocks] at h
    cases hp : TranscriptLine.parse_line b with
    | error e => rw [hp] at h; exact Except.noConfusion h
    | ok ln =>
      rw [hp] at h
      obtain ⟨ls, hf, ht⟩ := parse_blocks_ok bs _ t h
      exact ⟨ln :: ls, .cons hp hf, by rw [ht, List.foldl_cons]⟩

theorem forall2_mem_right {R : List Char → TranscriptLine → Prop} :
    ∀ {bs : List (List Char)} {ls : List TranscriptLine}, List.Forall₂ R bs ls →
      ∀ ln ∈ ls, ∃ b, R b ln := by
  intro bs ls hF
  induction hF with
  | nil => intro ln h; exact absurd h (List.not_mem_nil ln)
  | cons hR hF2 ih =>
    intro ln h
    rcases List.mem_cons.mp h with rfl | h2
    · exact ⟨_, hR⟩
    · exact ih ln h2

theorem forall2_getLast {R : List Char → TranscriptLine → Prop} {bs : List (List Char)}
    {ls : List TranscriptLine} (hF : List.Forall₂ R bs ls) :
    ∀ {b ln}, bs.getLast? = some b → ls.getLast? = some ln → R b ln := by
  induction hF with
  | nil => intro b ln hb _; simp at hb
  | cons hR hF2 ih =>
    intro b ln hb hl
    cases hF2 with
    | nil =>
      simp only [List.getLast?_singleton, Option.some.injEq] at hb hl
      subst hb
      subst hl
      exact hR
    | cons hR2 hF3 =>
      rw [List.getLast?_cons_cons] at hb hl
      exact ih hb hl

theorem numberBlocks_cons (i : Nat) (ln : TranscriptLine) (ls : List TranscriptLine) :
    numberBlocks i (ln :: ls) = (natToChars i ++ '\n' :: ln.str) :: numberBlocks (i + 1) ls := by
  rw [numberBlocks]

theorem parse_blocks_numberBlocks : ∀ (ls : List TranscriptLine) (i : Nat) (t0 : Transcript),
    1 ≤ i → (∀ ln ∈ ls, LineOK ln) →
    parse_blocks t0 (numberBlocks i ls) = .ok (ls.foldl Transcript.add_item t0)
  | [], i, t0, _, _ => by
    rw [numberBlocks, parse_blocks, List.foldl_nil]
  | ln :: ls, i, t0, hi, hok => by
    rw [numberBlocks_cons, parse_blocks,
      parse_line_str ln (hok ln (List.mem_cons_self ln ls)) i hi, List.foldl_cons]
    exact parse_blocks_numberBlocks ls (i + 1) _ (by omega)
      (fun x hx => hok x (List.mem_cons_of_mem ln hx))

theorem str_decomp (ln : TranscriptLine) (hok : LineOK ln) :
    ∃ y, ln.str = y ++ '\n' :: (ln.speaker ++ ':' :: ' ' :: ln.text) ∧
      (∀ c ∈ y, c ≠ '\n') ∧ y ≠ [] := by
  obtain ⟨hst, hen, hspne, htxne, hcont, hsg⟩ := hok
  obtain ⟨h1, m1, s1, f1, hh1, hm1, hs1, hf1, hst_eq⟩ := TimeOK_decomp hst
  obtain ⟨h2, m2, s2, f2, hh2, hm2, hs2, hf2, hen_eq⟩ := TimeOK_decomp hen
  refine ⟨tsDigits h1 m1 s1 f1 ++ ' ' :: '-' :: '-' :: '>' :: ' ' :: tsDigits h2 m2 s2 f2,
    ?_, ?_, by simp [tsDigits]⟩
  · rw [TranscriptLine.str, hst_eq, hen_eq,
      formatTimestamp_digits h1 m1 s1 f1 hh1 hm1 hs1 hf1,
      formatTimestamp_digits h2 m2 s2 f2 hh2 hm2 hs2 hf2]
    simp [List.append_assoc]
  · intro c hc
    rw [List.mem_append] at hc
    rcases hc with hc | hc
    · exact tsDigits_ne_nl h1 m1 s1 f1 (by omega) (by omega) (by omega) (by omega) c hc
    · simp only [List.mem_cons] at hc
      rcases hc with rfl | rfl | rfl | rfl | rfl | hc
      · decide
      · decide
      · decide
      · decide
      · decide
      · exact tsDigits_ne_nl h2 m2 s2 f2 (by omega) (by omega) (by omega) (by omega) c hc

theorem numberBlocks_shape : ∀ (ls : List TranscriptLine) (i : Nat),
    (∀ ln ∈ ls, LineOK ln) →
    ∀ b ∈ numberBlocks i ls, ∃ x y z, b = x ++ '\n' :: (y ++ '\n' :: z) ∧
      (∀ c ∈ x, c ≠ '\n') ∧ (∀ c ∈ y, c ≠ '\n') ∧ (∀ c ∈ z, c ≠ '\n') ∧
      y ≠ [] ∧ z ≠ []
  | [], _, _, b, hb => by rw [numberBlocks] at hb; exact absurd hb (List.not_mem_nil b)
  | ln :: ls, i, hok, b, hb => by
    rw [numberBlocks_cons] at hb
    rcases List.mem_cons.mp hb with rfl | hb2
    · have hlok := hok ln (List.mem_cons_self ln ls)
      obtain ⟨y, hstr, hynl, hyne⟩ := str_decomp ln hlok
      obtain ⟨_, _, hspne, htxne, hcont, _⟩ := hlok
      refine ⟨natToChars i, y, ln.speaker ++ ':' :: ' ' :: ln.text, by rw [hstr],
        fun c hc => digit_ne_nl (natToChars_digits i c hc).1 (natToChars_digits i c hc).2,
        hynl, no_nl_of_contains_false hcont, hyne, by
          cases hsp : ln.speaker with
          | nil => exact absurd hsp hspne
          | cons a t => simp⟩
    · exact numberBlocks_shape ls (i + 1)
        (fun x hx => hok x (List.mem_cons_of_mem ln hx)) b hb2

theorem numberBlocks_getLast? : ∀ (ls : List TranscriptLine) (i : Nat) (ln : TranscriptLine),
    ls.getLast? = some ln →
    ∃ k, (numberBlocks i ls).getLast? = some (natToChars k ++ '\n' :: ln.str)
  | [], _, _, h => by simp at h
  | [ln0], i, ln, h => by
    simp only [List.getLast?_singleton, Option.some.injEq] at h
    subst h
    exact ⟨i, rfl⟩
  | ln0 :: ln1 :: ls, i, ln, h => by
    rw [List.getLast?_cons_cons] at h
    obtain ⟨k, hk⟩ := numberBlocks_getLast? (ln1 :: ls) (i + 1) ln h
    refine ⟨k, ?_⟩
    rw [numberBlocks_cons, numberBlocks_cons, List.getLast?_cons_cons, ← numberBlocks_cons]
    exact hk

theorem getLast?_append_cons {α : Type} (a : List α) (c : α) (b : List α) (hb : b ≠ []) :
    (a ++ c :: b).getLast? = b.getLast? := by
  rw [show (c :: b : List α) = [c] ++ b from rfl, ← List.append_assoc,
    getLast?_append_right _ _ hb]

theorem getLast?_cons_ne {α : Type} (a : α) (l : List α) (h : l ≠ []) :
    (a :: l).getLast? = l.getLast? := by
  rw [show (a :: l) = [a] ++ l from rfl, getLast?_append_right [a] l h]

theorem getLast?_speaker_line (sp tx : List Char) (htx : tx ≠ []) :
    (sp ++ ':' :: ' ' :: tx).getLast? = tx.getLast? := by
  rw [getLast?_append_cons sp ':' (' ' :: tx) (by simp), getLast?_cons_ne ' ' tx htx]

/-- Claim C2 counterexample: the header-only input `WEBVTT` is accepted by the
grammar (optional header, zero blocks) and parses to the empty transcript, but
that transcript serializes to the empty string, which fails to re-parse: the
round trip does not hold for every parseable input. -/
theorem C2_counterexample :
    Transcript.parse_transcript (("WEBVTT").toList) = .ok emptyTranscript ∧
    ∃ e, Transcript.parse_transcript emptyTranscript.str = .error e := by
  exact ⟨rfl, ⟨_, rfl⟩⟩

/-- Claim C2 (amended): for every input that parses successfully into a
transcript with at least one line, serializing the transcript and re-parsing
the result yields the very same transcript (line-for-line, and in fact field
for field).  The only parseable inputs excluded are the header-only ones,
whose empty serialization fails to re-parse. -/
theorem C2_roundtrip (input : List Char) (t : Transcript)
    (hp : Transcript.parse_transcript input = .ok t) (hne : t.lines ≠ []) :
    Transcript.parse_transcript t.str = .ok t := by
  have hp' : parse_blocks emptyTranscript
      (if (splitNlNl (pyStrip input)).head? = some (("WEBVTT").toList)
       then (splitNlNl (pyStrip input)).tail else splitNlNl (pyStrip input)) = .ok t := hp
  obtain ⟨ls, hf2, ht⟩ := parse_blocks_ok _ _ _ hp'
  have hlines : t.lines = ls := by
    rw [ht, foldl_add_item_lines]
    rfl
  have hlsne : ls ≠ [] := fun hcon => hne (hlines.trans hcon)
  have hlok : ∀ ln ∈ ls, LineOK ln := by
    intro ln hln
    obtain ⟨b, hb⟩ := forall2_mem_right hf2 ln hln
    exact (parse_line_ok b ln hb).1
  obtain ⟨lnl, hlnl⟩ : ∃ lnl, ls.getLast? = some lnl := by
    cases hc : ls.getLast? with
    | none => exact absurd (List.getLast?_eq_none_iff.mp hc) hlsne
    | some a => exact ⟨a, rfl⟩
  have hlnl_mem : lnl ∈ ls := List.mem_of_getLast?_eq_some hlnl
  obtain ⟨bl, hbl⟩ : ∃ bl,
      (if (splitNlNl (pyStrip input)).head? = some (("WEBVTT").toList)
       then (splitNlNl (pyStrip input)).tail
       else splitNlNl (pyStrip input)).getLast? = some bl := by
    cases hc : (if (splitNlNl (pyStrip input)).head? = some (("WEBVTT").toList)
        then (splitNlNl (pyStrip input)).tail
        else splitNlNl (pyStrip input)).getLast? with
    | none =>
      exfalso
      have hbsnil := List.getLast?_eq_none_iff.mp hc
      have hlen2 := hf2.length_eq
      rw [hbsnil] at hlen2
      exact hlsne (List.length_eq_zero.mp hlen2.symm)
    | some a => exact ⟨a, rfl⟩
  have hplast : TranscriptLine.parse_line bl = .ok lnl := forall2_getLast hf2 hbl hlnl
  have htxne_l : lnl.text ≠ [] := (parse_line_ok bl lnl hplast).1.2.2.2.1
  obtain ⟨-, l1, l2, hbeq⟩ := parse_line_ok bl lnl hplast
  have hblne : bl ≠ [] := by
    rw [hbeq]
    cases l1 <;> simp
  have hbl_last : bl.getLast? = lnl.text.getLast? := by
    rw [hbeq, getLast?_append_cons l1 '\n' _ (by simp),
      getLast?_append_cons l2 '\n' _ (by
        cases hsp : lnl.speaker <;> simp),
      getLast?_speaker_line lnl.speaker lnl.text htxne_l]
  have hsplit_last : (splitNlNl (pyStrip input)).getLast? = some bl := by
    by_cases hw : (splitNlNl (pyStrip input)).head? = some (("WEBVTT").toList)
    · rw [if_pos hw] at hbl
      cases hsp : splitNlNl (pyStrip input) with
      | nil => exact absurd hsp (splitNlNl_ne_nil _)
      | cons b0 bs0 =>
        rw [hsp, List.tail_cons] at hbl
        have hbs0ne : bs0 ≠ [] := by
          intro hcon
          rw [hcon] at hbl
          simp at hbl
        rw [getLast?_cons_ne b0 bs0 hbs0ne]
        exact hbl
    · rw [if_neg hw] at hbl
      exact hbl
  have hs_last : (pyStrip input).getLast? = lnl.text.getLast? := by
    conv_lhs => rw [← joinBlocks_splitNlNl (pyStrip input)]
    rw [getLast?_joinBlocks _ _ bl hsplit_last hblne, hbl_last]
  have htx_nospace : ∀ c, lnl.text.getLast? = some c → pyIsSpace c = false := by
    intro c hc
    apply pyStrip_getLast?_not_space input c
    rw [hs_last]
    exact hc
  obtain ⟨ln0, ls', hls⟩ : ∃ ln0 ls', ls = ln0 :: ls' := by
    cases ls with
    | nil => exact absurd rfl hlsne
    | cons a l => exact ⟨a, l, rfl⟩
  subst hls
  have hser : t.str = joinBlocks ['\n', '\n'] (numberBlocks 1 (ln0 :: ls')) := by
    rw [Transcript.str, hlines]
  have hhead : (joinBlocks ['\n', '\n'] (numberBlocks 1 (ln0 :: ls'))).head? = some '1' := by
    rw [numberBlocks_cons]
    cases numberBlocks 2 ls' with
    | nil => rfl
    | cons b2 bs2 => rfl
  obtain ⟨kk, hkk⟩ := numberBlocks_getLast? (ln0 :: ls') 1 lnl hlnl
  obtain ⟨yl, hstrl, hylnl, hylne⟩ := str_decomp lnl (hlok lnl hlnl_mem)
  have hlastblock_ne : natToChars kk ++ '\n' :: lnl.str ≠ [] := by
    cases hc : natToChars kk <;> simp
  have hser_last :
      (joinBlocks ['\n', '\n'] (numberBlocks 1 (ln0 :: ls'))).getLast? =
        lnl.text.getLast? := by
    rw [getLast?_joinBlocks _ _ _ hkk hlastblock_ne,
      getLast?_append_cons (natToChars kk) '\n' _ (by
        rw [hstrl]
        cases yl <;> simp),
      hstrl,
      getLast?_append_cons yl '\n' _ (by cases hsp : lnl.speaker <;> simp),
      getLast?_speaker_line lnl.speaker lnl.text htxne_l]
  have hstrip : pyStrip (joinBlocks ['\n', '\n'] (numberBlocks 1 (ln0 :: ls'))) =
      joinBlocks ['\n', '\n'] (numberBlocks 1 (ln0 :: ls')) := by
    apply pyStrip_eq_self
    · intro c hc
      rw [hhead] at hc
      injection hc with hc
      subst hc
      decide
    · intro c hc
      rw [hser_last] at hc
      exact htx_nospace c hc
  have hsplitser : splitNlNl (joinBlocks ['\n', '\n'] (numberBlocks 1 (ln0 :: ls'))) =
      numberBlocks 1 (ln0 :: ls') := by
    apply splitNlNl_joinBlocks
    · rw [numberBlocks_cons]
      simp
    · exact numberBlocks_shape (ln0 :: ls') 1 hlok
  have hwne : (numberBlocks 1 (ln0 :: ls')).head? ≠ some (("WEBVTT").toList) := by
    rw [numberBlocks_cons, List.head?_cons]
    intro hcon
    injection hcon with hcon
    have : ((natToChars 1 ++ '\n' :: ln0.str).head?) = some 'W' := by
      rw [hcon]
      rfl
    rw [show natToChars 1 = ['1'] from rfl] at this
    simp at this
  show Transcript.parse_transcript t.str = .ok t
  have hgoal : Transcript.parse_transcript t.str = parse_blocks emptyTranscript
      (if (splitNlNl (pyStrip t.str)).head? = some (("WEBVTT").toList)
       then (splitNlNl (pyStrip t.str)).tail else splitNlNl (pyStrip t.str)) := rfl
  rw [hgoal, hser, hstrip, hsplitser, if_neg hwne,
    parse_blocks_numberBlocks (ln0 :: ls') 1 emptyTranscript (by omega) hlok, ← ht]

/-- Witness for C2 (amended) at a concrete one-block input. -/
theorem C2_roundtrip_witness :
    Transcript.parse_transcript
        (ofLines [TranscriptLine.create 0 1500000 (("Alice").toList)
          (("hi there").toList)]).str =
      .ok (ofLines [TranscriptLine.create 0 1500000 (("Alice").toList)
          (("hi there").toList)]) := by
  refine C2_roundtrip (("1\n00:00:00.000 --> 00:00:01.500\nAlice: hi there").toList)
    (ofLines [TranscriptLine.create 0 1500000 (("Alice").toList) (("hi there").toList)]) ?_ ?_
  · rfl
  · decide
